import Mathlib

/-!
# Tree mutation and lazy write of `gitutil.cpp`

A shallow embedding of `Git::Tree::do_update`, `Git::Tree::do_remove` and
`Git::Tree::write` (src/src/gitutil.cpp).

* Objects are values: an `ObjectPtr` is embedded as the object it points to, so a
  tree owns its entries (no two paths alias one object).
* `std::map<std::string, ObjectPtr>` is an association list; `find`, `erase`,
  `insert` and assignment through an iterator are the functions `entries_find`,
  `entries_erase`, `entries_insert` and `entries_assign`.
* The object store (libgit2) is an external collaborator: every call made to it is
  appended to a log, its return codes come from an `ObjectStore` parameter, and the
  entries it holds for a tree are the `git` field of that tree.
* A C++ exception does not roll back: every operation returns the state reached
  together with the error raised, if any.
-/

namespace Git

/-! ## Errors, store calls, results -/

/-- Ways in which a call does not return normally. -/
inductive Err where
  /-- An `assert` failed (only when the build defines `ASSERTS`). -/
  | assertion_failed
  /-- A `std::logic_error` was thrown with this message. -/
  | logic_error (what : String)
  /-- A null pointer or an end iterator was dereferenced. -/
  | undefined_behaviour
  /-- The filesystem library raised `filesystem_error`. -/
  | filesystem_error
deriving DecidableEq, Repr

/-- One entry of a tree as the object store holds it (`git_tree_entry`); `handle`
stands for the address of the entry. -/
structure GitEntry where
  handle : Nat
  name : String
  oid : Nat
  attributes : Nat
deriving DecidableEq, Repr

/-- The calls into the object store. A tree argument is given by the name of the
`Tree` object, an entry argument by its handle, a commit or tree identity by its
number; `git_object_write_commit` is `git_object_write(*this)` on a commit. -/
inductive StoreCall where
  | git_tree_entry_set_id (entry : Option Nat) (oid : Nat)
  | git_tree_entry_set_attributes (entry : Option Nat) (attributes : Nat)
  | git_tree_entry_set_name (entry : Option Nat) (name : String)
  | git_tree_remove_entry_byname (tree : String) (name : String)
  | git_tree_clear_entries (tree : String)
  | git_tree_add_entry2 (tree : String) (oid : Nat) (name : String) (attributes : Nat)
  | git_tree_sort_entries (tree : String)
  | git_object_write (tree : String)
  | git_commit_set_tree (tree_oid : Nat)
  | git_object_write_commit (tree_oid : Nat)
  | git_commit_lookup (oid : Nat)
deriving DecidableEq, Repr

/-- The store calls issued so far, oldest first. -/
abbrev Log := List StoreCall

/-- Behaviour of the object store, which is not part of the repository: the return
code of a call, given the calls made before it, and the content-derived identity
the store computes for a tree object (from its entries) and for a commit object
(from the identity of its tree and those of its parents) when it is written. -/
structure ObjectStore where
  rc : Log → StoreCall → Int
  digest : List GitEntry → Nat
  commit_digest : Nat → List Nat → Nat

/-- State reached by an operation, the log of store calls, and the error raised. -/
structure Res (α : Type) where
  val : α
  log : Log
  err : Option Err

/-! ## Objects -/

/-- Modelled from the spec: the class `Blob` of gitutil.h, an `Object` that is a
leaf. `name`, `attributes` and `tree_entry` are the members of `Object` that
gitutil.cpp reads and assigns, `oid` is the identity `*obj` converts to. -/
structure Blob where
  name : String
  attributes : Nat
  oid : Nat
  tree_entry : Option Nat
deriving DecidableEq, Repr

/-- Modelled from the spec: the class `Tree` of gitutil.h, "entries: ordered-by-name
mapping, modified, written, sort_needed", with the members inherited from `Object`,
over the type of the objects held in `entries`; `git` is the entry list of the
underlying `git_tree`. -/
structure TreeOf (O : Type) where
  name : String
  attributes : Nat
  oid : Nat
  tree_entry : Option Nat
  entries : List (String × O)
  written : Bool
  modified : Bool
  sort_needed : Bool
  git : List GitEntry

/-- Modelled from the spec: what an `ObjectPtr` held in a tree points to, a blob or
a tree ("a named reference to an Object (blob or subtree)"). -/
inductive Obj where
  | blob (b : Blob)
  | tree (t : TreeOf Obj)

abbrev Tree := TreeOf Obj

/-- Member `name` of `Object`. -/
def Obj.name : Obj → String
  | .blob b => b.name
  | .tree t => t.name

/-- Member `attributes` of `Object`. -/
def Obj.attributes : Obj → Nat
  | .blob b => b.attributes
  | .tree t => t.attributes

/-- Identity of the object (`*obj` as a `git_oid`). -/
def Obj.oid : Obj → Nat
  | .blob b => b.oid
  | .tree t => t.oid

/-- Member `tree_entry` of `Object`. -/
def Obj.tree_entry : Obj → Option Nat
  | .blob b => b.tree_entry
  | .tree t => t.tree_entry

/-- Assignment `obj->tree_entry = te`. -/
def Obj.set_tree_entry : Obj → Option Nat → Obj
  | .blob b, te => .blob { b with tree_entry := te }
  | .tree t, te => .tree { t with tree_entry := te }

/-- Modelled from the spec: the virtual `Object::is_blob()` of gitutil.h. -/
def Obj.is_blob : Obj → Bool
  | .blob _ => true
  | .tree _ => false

/-! ## `entries_map` -/

/-- Lookup `entries.find(name)` in the `std::map` `entries`: the object bound to
`name`, `none` for `end()`. -/
def entries_find {α : Type} : List (String × α) → String → Option α
  | [], _ => none
  | (k, v) :: rest, name => if k = name then some v else entries_find rest name

/-- Removal `entries.erase(i)` for the iterator `i` found for `name`: afterwards the
map has no entry of that key (a `std::map` holds at most one). -/
def entries_erase {α : Type} : List (String × α) → String → List (String × α)
  | [], _ => []
  | (k, v) :: rest, name =>
    if k = name then entries_erase rest name else (k, v) :: entries_erase rest name

/-- Position of a new key in key order (`std::less<std::string>`). -/
def entries_insert_sorted {α : Type} : List (String × α) → String → α → List (String × α)
  | [], name, v => [(name, v)]
  | (k, w) :: rest, name, v =>
    if name.data < k.data then (name, v) :: (k, w) :: rest
    else (k, w) :: entries_insert_sorted rest name v

/-- Insertion `entries.insert(entries_pair(name, v))`: a map that already binds
`name` is left as it is. -/
def entries_insert {α : Type} (es : List (String × α)) (name : String) (v : α) :
    List (String × α) :=
  if (entries_find es name).isSome then es else entries_insert_sorted es name v

/-- Assignment `(*i).second = v` for the iterator `i` found for `name`, which is
the first entry of that key. -/
def entries_assign {α : Type} : List (String × α) → String → α → List (String × α)
  | [], _, _ => []
  | (k, w) :: rest, name, v =>
    if k = name then (k, v) :: rest else (k, w) :: entries_assign rest name v

/-- Modelled from the spec: `Tree::empty()` of gitutil.h, "an empty Tree (`entries`
empty)". -/
def TreeOf.empty {O : Type} (t : TreeOf O) : Bool := t.entries.isEmpty

/-- Modelled from the spec: `Repository::create_tree(name)` of gitutil.h, a newly
constructed tree of that name: no entries, never written, not modified. -/
def create_tree (name : String) : Tree :=
  { name := name, attributes := 0o040000, oid := 0, tree_entry := none, entries := [],
    written := false, modified := false, sort_needed := false, git := [] }

/-! ## The object store's view of a tree -/

/-- Effect of an in-place patch of the persisted entry `te` on the entry list of
this tree; an entry that is not in the list is not tracked. -/
def patch_entry (te : Option Nat) (f : GitEntry → GitEntry) (git : List GitEntry) :
    List GitEntry :=
  git.map (fun e => if some e.handle = te then f e else e)

/-- Entry list after a successful `git_tree_remove_entry_byname`. -/
def remove_entry_byname (git : List GitEntry) (name : String) : List GitEntry :=
  git.filter (fun e => decide (e.name ≠ name))

/-- Entry list after `git_tree_sort_entries`. -/
def sort_entries (git : List GitEntry) : List GitEntry :=
  git.insertionSort (fun a b => a.name.data ≤ b.name.data)

/-! ## `Tree::do_update` -/

/-- Embedding of `Tree::do_update(segment, end, obj)`; `name` is `*segment` and
`rest` the segments after it, so `++segment == end` is `rest = []`. -/
def do_update (ASSERTS : Bool) : Tree → String → List String → Obj → Log → Res Tree
  | t, name, [], obj, log =>
    let t := { t with modified := true }
    if ASSERTS && decide (name ≠ obj.name) then ⟨t, log, some .assertion_failed⟩
    else
      match entries_find t.entries name with
      | none =>
        ⟨{ t with written := false, entries := entries_insert t.entries name obj }, log, none⟩
      | some curr_obj =>
        if obj.is_blob then
          let te := curr_obj.tree_entry
          let log := log ++ [.git_tree_entry_set_id te obj.oid,
                             .git_tree_entry_set_attributes te obj.attributes]
          let git := patch_entry te
            (fun e => { e with oid := obj.oid, attributes := obj.attributes }) t.git
          let obj := obj.set_tree_entry te
          if name ≠ obj.name then
            ⟨{ t with sort_needed := true,
                      entries := entries_insert (entries_erase t.entries name) obj.name obj,
                      git := patch_entry te (fun e => { e with name := obj.name }) git },
             log ++ [.git_tree_entry_set_name te obj.name], none⟩
          else
            ⟨{ t with entries := entries_assign t.entries name obj, git := git }, log, none⟩
        else
          ⟨{ t with written := false, entries := entries_assign t.entries name obj }, log, none⟩
  | t, name, next :: rest, obj, log =>
    let t := { t with modified := true }
    match entries_find t.entries name with
    | none =>
      let r := do_update ASSERTS (create_tree name) next rest obj log
      let t := { t with entries := entries_insert t.entries name (.tree r.val) }
      match r.err with
      | some e => ⟨t, r.log, some e⟩
      | none => ⟨{ t with written := false }, r.log, none⟩
    | some (Obj.tree sub) =>
      let r := do_update ASSERTS sub next rest obj log
      let t := { t with entries := entries_assign t.entries name (.tree r.val) }
      match r.err with
      | some e => ⟨t, r.log, some e⟩
      | none => ⟨{ t with written := false }, r.log, none⟩
    | some (Obj.blob _) => ⟨t, log, some .undefined_behaviour⟩

/-- Modelled from the spec: `Tree::update(pathname, obj)` of gitutil.h, which starts
the descent of `do_update` at the first segment of the path. -/
def update (ASSERTS : Bool) (t : Tree) (path : List String) (obj : Obj) (log : Log) :
    Res Tree :=
  match path with
  | [] => ⟨t, log, some .undefined_behaviour⟩
  | name :: rest => do_update ASSERTS t name rest obj log

/-! ## `Tree::do_remove` -/

/-- Embedding of `Tree::do_remove(segment, end)`; `name` is `*segment` and `rest`
the segments after it. -/
def do_remove (σ : ObjectStore) : Tree → String → List String → Log → Res Tree
  | t, name, [], log =>
    let t := { t with modified := true }
    match entries_find t.entries name with
    | none => ⟨t, log, none⟩
    | some _ =>
      let t := { t with entries := entries_erase t.entries name }
      let call := StoreCall.git_tree_remove_entry_byname t.name name
      if σ.rc log call ≠ 0 then
        ⟨t, log ++ [call], some (.logic_error "Could not remove entry from tree")⟩
      else
        ⟨{ t with git := remove_entry_byname t.git name }, log ++ [call], none⟩
  | t, name, next :: rest, log =>
    let t := { t with modified := true }
    match entries_find t.entries name with
    | none => ⟨t, log, none⟩
    | some (Obj.blob _) => ⟨t, log, some .undefined_behaviour⟩
    | some (Obj.tree sub) =>
      let r := do_remove σ sub next rest log
      let t := { t with entries := entries_assign t.entries name (.tree r.val) }
      match r.err with
      | some e => ⟨t, r.log, some e⟩
      | none =>
        if r.val.empty then
          let t := { t with entries := entries_erase t.entries name }
          let call := StoreCall.git_tree_remove_entry_byname t.name name
          if σ.rc r.log call ≠ 0 then
            ⟨t, r.log ++ [call], some (.logic_error "Could not remove entry from tree")⟩
          else
            ⟨{ t with git := remove_entry_byname t.git name }, r.log ++ [call], none⟩
        else
          ⟨{ t with written := false }, r.log, none⟩

/-- Modelled from the spec: `Tree::remove(pathname)` of gitutil.h, which starts the
descent of `do_remove` at the first segment of the path. -/
def remove (σ : ObjectStore) (t : Tree) (path : List String) (log : Log) : Res Tree :=
  match path with
  | [] => ⟨t, log, some .undefined_behaviour⟩
  | name :: rest => do_remove σ t name rest log

/-! ## `Tree::write` -/

/-- The call `git_tree_add_entry2(&obj->tree_entry, *this, *obj, obj->name.c_str(),
obj->attributes)` of the loop in `Tree::write`: on success the store appends an
entry to the tree's list and `obj->tree_entry` receives its handle (the position of
the call in the log). -/
def add_entry2 (σ : ObjectStore) (tree : String) (obj : Obj) (git : List GitEntry)
    (log : Log) : Res (Obj × List GitEntry) :=
  let call := StoreCall.git_tree_add_entry2 tree obj.oid obj.name obj.attributes
  if σ.rc log call ≠ 0 then
    ⟨(obj, git), log ++ [call], some (.logic_error "Could not add entry to tree")⟩
  else
    ⟨(obj.set_tree_entry (some log.length),
      git ++ [⟨log.length, obj.name, obj.oid, obj.attributes⟩]), log ++ [call], none⟩

/-- The two calls `git_object_write(*this)` of `Tree::write` with what follows them:
on success the tree receives its identity and `written = true`, `modified = false`
are set. -/
def object_write (σ : ObjectStore) (t : Tree) (log : Log) : Res Tree :=
  let call := StoreCall.git_object_write t.name
  if σ.rc log call ≠ 0 then
    ⟨t, log ++ [call], some (.logic_error "Could not write tree object")⟩
  else
    ⟨{ t with oid := σ.digest t.git, written := true, modified := false },
     log ++ [call], none⟩

/-- Modelled from the spec: `Tree::clear()` of gitutil.h, "discard all persisted
entries for this object": the store call it makes and the entry list it leaves. -/
def clear (name : String) (log : Log) : Res (List GitEntry) :=
  ⟨[], log ++ [.git_tree_clear_entries name], none⟩

mutual
/-- Embedding of `Tree::write()`. -/
def Tree.write (σ : ObjectStore) : Tree → Log → Res Tree
  | ⟨name, attributes, oid, tree_entry, entries, written, modified, sort_needed, git⟩, log =>
    if entries.isEmpty then
      ⟨⟨name, attributes, oid, tree_entry, entries, written, modified, sort_needed, git⟩,
       log, none⟩
    else if written then
      if modified then
        if sort_needed then
          object_write σ
            ⟨name, attributes, oid, tree_entry, entries, written, modified, sort_needed,
             sort_entries git⟩
            (log ++ [.git_tree_sort_entries name])
        else
          object_write σ
            ⟨name, attributes, oid, tree_entry, entries, written, modified, sort_needed, git⟩
            log
      else
        ⟨⟨name, attributes, oid, tree_entry, entries, true, false, sort_needed, git⟩,
         log, none⟩
    else
      let c := clear name log
      let r := write_entries σ name entries c.val c.log
      match r.err with
      | some e =>
        ⟨⟨name, attributes, oid, tree_entry, r.val.1, written, modified, sort_needed,
          r.val.2⟩, r.log, some e⟩
      | none =>
        object_write σ
          ⟨name, attributes, oid, tree_entry, r.val.1, written, modified, sort_needed,
           sort_entries r.val.2⟩
          (r.log ++ [.git_tree_sort_entries name])
/-- The statement `if (! obj->is_blob()) obj->write();` of the loop. -/
def write_object (σ : ObjectStore) : Obj → Log → Res Obj
  | .blob b, log => ⟨.blob b, log, none⟩
  | .tree sub, log =>
    let r := Tree.write σ sub log
    ⟨.tree r.val, r.log, r.err⟩
/-- The loop of `Tree::write` over `entries` from the iterator position on; `tree`
is the name of the tree being written and `git` its persisted entries so far. -/
def write_entries (σ : ObjectStore) (tree : String) :
    List (String × Obj) → List GitEntry → Log → Res (List (String × Obj) × List GitEntry)
  | [], git, log => ⟨([], git), log, none⟩
  | (k, obj) :: rest, git, log =>
    let r := write_object σ obj log
    match r.err with
    | some e => ⟨((k, r.val) :: rest, git), r.log, some e⟩
    | none =>
      let a := add_entry2 σ tree r.val git r.log
      match a.err with
      | some e => ⟨((k, a.val.1) :: rest, a.val.2), a.log, some e⟩
      | none =>
        let w := write_entries σ tree rest a.val.2 a.log
        ⟨((k, a.val.1) :: w.val.1, w.val.2), w.log, w.err⟩
end

/-! ## Following a path -/

/-- The object reached by following `path` segment by segment through the entry
mappings, starting at `t`. -/
def resolve : Tree → List String → Option Obj
  | _, [] => none
  | t, [name] => entries_find t.entries name
  | t, name :: next :: rest =>
    match entries_find t.entries name with
    | some (Obj.tree sub) => resolve sub (next :: rest)
    | _ => none

/-- The tree reached by following `path` through subtree entries; the empty path
reaches `t` itself. -/
def subtree_at : Tree → List String → Option Tree
  | t, [] => some t
  | t, name :: rest =>
    match entries_find t.entries name with
    | some (Obj.tree sub) => subtree_at sub rest
    | _ => none

/-- Every non-final segment of the path names either no entry or a subtree entry. -/
def PathOk : Tree → List String → Prop
  | _, [] => True
  | _, [_] => True
  | t, name :: next :: rest =>
    match entries_find t.entries name with
    | none => True
    | some (Obj.tree sub) => PathOk sub (next :: rest)
    | some (Obj.blob _) => False

/-- The path resolves in `t`, and every subtree below `t` along the path holds
exactly one entry, the next segment. -/
def SingleChain : Tree → List String → Prop
  | _, [] => False
  | t, [name] => ∃ o, entries_find t.entries name = some o
  | t, name :: next :: rest =>
    ∃ sub, entries_find t.entries name = some (.tree sub) ∧
      (∃ o, sub.entries = [(next, o)]) ∧ SingleChain sub (next :: rest)

/-- The path does not resolve to an entry of `t`, and every non-final segment that
exists names a subtree with at least one entry. -/
def AbsentPath : Tree → List String → Prop
  | _, [] => False
  | t, [name] => entries_find t.entries name = none
  | t, name :: next :: rest =>
    match entries_find t.entries name with
    | none => True
    | some (.tree sub) => sub.entries ≠ [] ∧ AbsentPath sub (next :: rest)
    | some (.blob _) => False

mutual
/-- The tree with the flags `written` and `modified` of itself and of every subtree
reset: two trees with the same image have the same entries mapping at every level
(and the same names, identities and persisted entries). -/
def Tree.forget_flags : Tree → Tree
  | ⟨name, attributes, oid, tree_entry, entries, _, _, sort_needed, git⟩ =>
    ⟨name, attributes, oid, tree_entry, forget_flags_entries entries, false, false,
     sort_needed, git⟩
/-- Image of an object under `Tree.forget_flags`. -/
def Obj.forget_flags : Obj → Obj
  | .blob b => .blob b
  | .tree t => .tree (Tree.forget_flags t)
/-- Image of an entries mapping under `Tree.forget_flags`. -/
def forget_flags_entries : List (String × Obj) → List (String × Obj)
  | [] => []
  | (k, o) :: rest => (k, Obj.forget_flags o) :: forget_flags_entries rest
end

/-- The path `q` is a proper prefix of `path`: the trees that the descent of
`do_remove` along `path` can enter are those reached by such a `q`. -/
def ProperPrefix (q path : List String) : Prop := q <+: path ∧ q ≠ path

/-! ## Sequences of calls -/

/-- A call on a tree: `update(path, obj)`, `remove(path)` or `write()`. -/
inductive Op where
  | update (path : List String) (obj : Obj)
  | remove (path : List String)
  | write

/-- One call on the tree `t`. -/
def run_op (ASSERTS : Bool) (σ : ObjectStore) (t : Tree) (log : Log) : Op → Res Tree
  | .update path obj => update ASSERTS t path obj log
  | .remove path => remove σ t path log
  | .write => Tree.write σ t log

/-- The calls of the list made one after the other on the same tree; a call that
does not return normally ends the sequence. -/
def run_ops (ASSERTS : Bool) (σ : ObjectStore) : List Op → Tree → Log → Res Tree
  | [], t, log => ⟨t, log, none⟩
  | op :: ops, t, log =>
    match (run_op ASSERTS σ t log op).err with
    | some e => ⟨(run_op ASSERTS σ t log op).val, (run_op ASSERTS σ t log op).log, some e⟩
    | none =>
      run_ops ASSERTS σ ops (run_op ASSERTS σ t log op).val (run_op ASSERTS σ t log op).log

/-- Every update of the sequence passes an object whose name is the final segment
of its path. -/
def NamedUpdates (ops : List Op) : Prop :=
  ∀ path obj, Op.update path obj ∈ ops → path.getLast? = some obj.name

/-- Every object of the mapping is bound to its own name. -/
def NamedByKey (es : List (String × Obj)) : Prop := ∀ e ∈ es, e.2.name = e.1

/-- The set of entry names persisted in the store for the tree equals the key set
of its in-memory entries mapping. -/
def Mirrors (t : Tree) : Prop :=
  ∀ n, n ∈ t.git.map GitEntry.name ↔ n ∈ t.entries.map Prod.fst

/-- Invariant of a tree under `update`, `remove` and `write`: objects are bound to
their names, and while `written` is true the persisted entries mirror the mapping. -/
def Inv (t : Tree) : Prop := NamedByKey t.entries ∧ (t.written = true → Mirrors t)

/-! ## Sample stores, objects and trees -/

/-- A store in which every call succeeds; identities are the number of entries. -/
def ok_store : ObjectStore := ⟨fun _ _ => 0, fun g => g.length, fun t ps => 100 + t + ps.length⟩

/-- A store in which every call whose result is checked fails. -/
def failing_store : ObjectStore :=
  ⟨fun _ _ => -1, fun g => g.length, fun t ps => 100 + t + ps.length⟩

/-- A blob of the given name and identity. -/
def mk_blob (name : String) (oid : Nat) : Obj := .blob ⟨name, 0o100644, oid, none⟩

/-- A blob as a tree holds it after a write: `tree_entry` is the handle of its
persisted entry. -/
def written_blob (name : String) (oid handle : Nat) : Obj :=
  .blob ⟨name, 0o100644, oid, some handle⟩

/-- The tree that holds only a/b/c.txt, built by one update of a new tree. -/
def sample_tree : Tree :=
  (update false (create_tree "") ["a", "b", "c.txt"] (mk_blob "c.txt" 1) []).val

/-- A tree in the state `written = true`, `modified = false` that holds the blob `f`
and the subtree `x` with the blob `old.txt`, built by two updates and a write of a
new tree. -/
def written_tree : Tree :=
  (run_ops false ok_store
    [.update ["f"] (mk_blob "f" 1), .update ["x", "old.txt"] (mk_blob "old.txt" 3), .write]
    (create_tree "") []).val

/-- A tree whose only entry `x` is a subtree without entries, built by one update
with a new tree as the object. -/
def empty_dir_tree : Tree :=
  (update true (create_tree "") ["x"] (.tree (create_tree "x")) []).val

/-- A tree whose subtree `x` holds the blobs `new.txt` and `old.txt`, built by two
updates of a new tree. -/
def collision_tree : Tree :=
  (update false
    (update false (create_tree "") ["x", "old.txt"] (mk_blob "old.txt" 3) []).val
    ["x", "new.txt"] (mk_blob "new.txt" 4) []).val

/-- A sequence of calls: two insertions, a write, a removal that prunes `a`, and a
replacement of the blob `README`. -/
def sample_ops : List Op :=
  [.update ["a", "b", "c.txt"] (mk_blob "c.txt" 1), .update ["README"] (mk_blob "README" 2),
   .write, .remove ["a", "b", "c.txt"], .update ["README"] (mk_blob "README" 3)]

/-- The tree left by inserting a/b/c.txt into a new tree and removing it again: no
entries, `modified = true`, never written. -/
def emptied_tree : Tree := (remove ok_store sample_tree ["a", "b", "c.txt"] []).val

/-! ## Commits -/

/-- Modelled from the spec: the class `Commit` of gitutil.h, "tree: TreeRef (nullable
until first update), prefix: path (possibly empty), parents: ordered sequence of
CommitRef"; `oid` is the identity of the commit object. The commit is taken together
with the `Tree` object its `tree` pointer refers to, for the calls made on one
commit; commits that point to the same `Tree` object are described by `Memory`. -/
inductive Commit where
  | mk (oid : Nat) (tree : Option Tree) (prefix_path : List String) (parents : List Commit)

/-- Identity of the commit object. -/
def Commit.oid : Commit → Nat
  | .mk oid _ _ _ => oid

/-- Member `tree` of `Commit`. -/
def Commit.tree : Commit → Option Tree
  | .mk _ tree _ _ => tree

/-- Member `prefix` of `Commit`. -/
def Commit.prefix_path : Commit → List String
  | .mk _ _ pfx _ => pfx

/-- The parent commits, in order. -/
def Commit.parents : Commit → List Commit
  | .mk _ _ _ parents => parents

/-- Modelled from the spec: `Repository::create_commit()` of gitutil.h, a newly
constructed commit: no tree, empty prefix, no parents. -/
def create_commit : Commit := .mk 0 none [] []

/-- Modelled from the spec: a `Commit` object of gitutil.h with its pointers kept as
pointers, "tree: TreeRef (nullable until first update), prefix: path (possibly empty),
parents: ordered sequence of CommitRef": `tree` is the address of a `Tree` object,
`none` when null, and `parents` are addresses of `Commit` objects. -/
structure CommitObj where
  oid : Nat
  tree : Option Nat
  prefix_path : List String
  parents : List Nat

/-- The `Tree` and `Commit` objects of a repository in memory. The address of an
object is its position in the list, so two pointers are the same reference exactly
when they are the same address, and a change made through one pointer is seen
through every pointer to that address. -/
structure Memory where
  trees : List Tree
  commits : List CommitObj

/-- Modelled from the spec: `Repository::create_commit()` of gitutil.h on the memory:
a newly constructed commit (no tree, empty prefix, no parents) is placed at a new
address, which is returned. -/
def Repository.create_commit (m : Memory) : Memory × Nat :=
  ({ m with commits := m.commits ++ [⟨0, none, [], []⟩] }, m.commits.length)

/-- An assignment to members of the `Commit` object at address `a`. -/
def Memory.assign_commit (m : Memory) (a : Nat) (f : CommitObj → CommitObj) : Memory :=
  match m.commits[a]? with
  | none => m
  | some c => { m with commits := m.commits.set a (f c) }

/-- Modelled from the spec: `Commit::add_parent(parent)` of gitutil.h, which appends
the pointer `parent` to the parents of the commit at `this`. -/
def Commit.add_parent (m : Memory) (this parent : Nat) : Memory :=
  Memory.assign_commit m this (fun c => { c with parents := c.parents ++ [parent] })

/-- Embedding of `Commit::clone()` for the commit at address `this`: the memory after
the call and the address of the new commit. `new_commit->tree = tree` copies the
pointer, not the `Tree` object. The result is `none` when `this` is not the address
of a commit. -/
def Commit.clone (m : Memory) (this : Nat) : Option (Memory × Nat) :=
  match m.commits[this]? with
  | none => none
  | some c =>
    let r := Repository.create_commit m
    let new_commit := r.2
    let m := Memory.assign_commit r.1 new_commit (fun n => { n with tree := c.tree })
    let m := Memory.assign_commit m new_commit
      (fun n => { n with prefix_path := c.prefix_path })
    some (Commit.add_parent m new_commit this, new_commit)

/-- The `Tree` object the commit at address `this` points to (`*tree`), `none` when
the pointer is null. -/
def Commit.tree_at (m : Memory) (this : Nat) : Option Tree :=
  match m.commits[this]? with
  | none => none
  | some c =>
    match c.tree with
    | none => none
    | some a => m.trees[a]?

/-- Embedding of `Commit::update(pathname, obj)` for the commit at address `this`:
a null `tree` is first pointed to a new `Tree` object, and `tree->update` changes the
`Tree` object at the address `tree`, whichever commits point to it. -/
def Commit.update_at (ASSERTS : Bool) (m : Memory) (this : Nat) (path : List String)
    (obj : Obj) (log : Log) : Res Memory :=
  match m.commits[this]? with
  | none => ⟨m, log, some .undefined_behaviour⟩
  | some c =>
    match c.tree with
    | none =>
      match path with
      | [] => ⟨m, log, some .undefined_behaviour⟩
      | name :: rest =>
        let r := Git.update ASSERTS (create_tree name) (name :: rest) obj log
        ⟨⟨m.trees ++ [r.val], m.commits.set this { c with tree := some m.trees.length }⟩,
         r.log, r.err⟩
    | some a =>
      match m.trees[a]? with
      | none => ⟨m, log, some .undefined_behaviour⟩
      | some t =>
        let r := Git.update ASSERTS t path obj log
        ⟨⟨m.trees.set a r.val, m.commits⟩, r.log, r.err⟩

/-- Embedding of `Commit::update(pathname, obj)`. -/
def Commit.update (ASSERTS : Bool) : Commit → List String → Obj → Log → Res Commit
  | .mk oid none pfx parents, [], _, log =>
    ⟨.mk oid none pfx parents, log, some .undefined_behaviour⟩
  | .mk oid none pfx parents, name :: rest, obj, log =>
    let r := Git.update ASSERTS (create_tree name) (name :: rest) obj log
    ⟨.mk oid (some r.val) pfx parents, r.log, r.err⟩
  | .mk oid (some tree) pfx parents, path, obj, log =>
    let r := Git.update ASSERTS tree path obj log
    ⟨.mk oid (some r.val) pfx parents, r.log, r.err⟩

/-- Modelled from the spec: `Tree::lookup(pathname)` of gitutil.h, "the subtree found
by looking up `prefix` inside the tree": the object the path resolves to, null when
there is none. -/
def lookup (t : Tree) (path : List String) : Option Obj := resolve t path

/-- The tree `t` after a mutation, through its pointer, of the subtree reached by
`path`: that subtree is now `sub`. -/
def set_subtree : Tree → List String → Tree → Tree
  | _, [], sub => sub
  | t, name :: rest, sub =>
    match entries_find t.entries name with
    | some (Obj.tree s) =>
      { t with entries := entries_assign t.entries name (.tree (set_subtree s rest sub)) }
    | _ => t

/-- The resolution of `subtree` in `Commit::write()` (from `TreePtr subtree;` to
`subtree = tree = repository->create_tree();`): the tree of the commit after these
statements, and the path at which `subtree` sits in it. `create_tree()` is called
without a name. -/
def resolve_subtree (ASSERTS : Bool) (tree : Option Tree) (pfx : List String) :
    Except Err (Tree × List String) :=
  match pfx with
  | [] =>
    match tree with
    | none => .ok (create_tree "", [])
    | some t => .ok (t, [])
  | name :: rest =>
    match tree with
    | none => .error .undefined_behaviour
    | some t =>
      match lookup t (name :: rest) with
      | none => if ASSERTS then .error .undefined_behaviour else .ok (create_tree "", [])
      | some (Obj.blob _) =>
        if ASSERTS then .error .assertion_failed else .ok (create_tree "", [])
      | some (Obj.tree _) => .ok (t, name :: rest)

/-- Embedding of `Commit::write()`. -/
def Commit.write (ASSERTS : Bool) (σ : ObjectStore) : Commit → Log → Res Commit
  | .mk oid tree pfx parents, log =>
    if ASSERTS && tree.isNone then ⟨.mk oid tree pfx parents, log, some .assertion_failed⟩
    else
      match resolve_subtree ASSERTS tree pfx with
      | .error e => ⟨.mk oid tree pfx parents, log, some e⟩
      | .ok (t, at_path) =>
        match subtree_at t at_path with
        | none => ⟨.mk oid (some t) pfx parents, log, some .undefined_behaviour⟩
        | some subtree =>
          if ASSERTS && subtree.empty then
            ⟨.mk oid (some t) pfx parents, log, some .assertion_failed⟩
          else
            let w := Tree.write σ subtree log
            let t := set_subtree t at_path w.val
            match w.err with
            | some e => ⟨.mk oid (some t) pfx parents, w.log, some e⟩
            | none =>
              let log := w.log ++ [.git_commit_set_tree w.val.oid]
              let call := StoreCall.git_object_write_commit w.val.oid
              if σ.rc log call ≠ 0 then
                ⟨.mk oid (some t) pfx parents, log ++ [call],
                 some (.logic_error "Could not write out Git commit")⟩
              else
                ⟨.mk (σ.commit_digest w.val.oid (parents.map Commit.oid)) (some t) pfx parents,
                 log ++ [call], none⟩

/-- The subtree a commit resolves to: the whole tree when the prefix is empty,
otherwise the tree found by looking up the prefix in the tree, and the substituted
new tree when nothing resolves. -/
def Commit.resolved_subtree : Commit → Tree
  | .mk _ (some t) [] _ => t
  | .mk _ (some t) (name :: rest) _ =>
    match lookup t (name :: rest) with
    | some (Obj.tree s) => s
    | _ => create_tree ""
  | .mk _ none _ _ => create_tree ""

/-- A commit on the tree that holds only a/b/c.txt, with no prefix and no parent. -/
def sample_commit : Commit := .mk 0 (some sample_tree) [] []

/-! ## The filesystem, branches and the repository -/

/-- What a path of the filesystem names. -/
inductive FsNode where
  | directory
  | regular (content : String)
  | other
deriving DecidableEq, Repr

/-- Modelled from the spec: the filesystem of "Filesystem interface", a mapping from
absolute paths (lists of segments below the root) to what they name. -/
abbrev FileSystem := List (List String × FsNode)

/-- What `path` names; the root is a directory. -/
def fs_find : FileSystem → List String → Option FsNode
  | _, [] => some .directory
  | [], _ :: _ => none
  | (p, n) :: rest, a :: q => if p = a :: q then some n else fs_find rest (a :: q)

/-- Query `boost::filesystem::is_directory`. -/
def is_directory (fs : FileSystem) (path : List String) : Bool :=
  fs_find fs path = some .directory

/-- Query `boost::filesystem::exists`. -/
def fs_exists (fs : FileSystem) (path : List String) : Bool := (fs_find fs path).isSome

/-- Query `boost::filesystem::is_regular_file`. -/
def is_regular_file (fs : FileSystem) (path : List String) : Bool :=
  match fs_find fs path with
  | some (.regular _) => true
  | _ => false

/-- Call `boost::filesystem::create_directory` on a path that is not a directory:
the directory is made when nothing has that name and its parent is a directory, and
the library raises an error otherwise. -/
def create_directory (fs : FileSystem) (path : List String) : Option FileSystem :=
  if (fs_find fs path).isNone && is_directory fs path.dropLast then
    some ((path, .directory) :: fs)
  else none

/-- The three statements `ofstream out(file); out << content; out.close();`: the
file is created or truncated and receives the content; a stream that cannot be
opened writes nothing and raises nothing. -/
def ofstream_write (fs : FileSystem) (file : List String) (content : String) : FileSystem :=
  if is_directory fs file.dropLast && (!fs_exists fs file || is_regular_file fs file) then
    (file, .regular content) :: fs.filter (fun e => decide (e.1 ≠ file))
  else fs

/-- The loop of `Repository::create_file` over the segments of `parent` that are
left, `dir` being the directory reached so far. -/
def make_directories : FileSystem → List String → List String → FileSystem × Option Err
  | fs, _, [] => (fs, none)
  | fs, dir, seg :: rest =>
    if is_directory fs (dir ++ [seg]) then make_directories fs (dir ++ [seg]) rest
    else
      match create_directory fs (dir ++ [seg]) with
      | none => (fs, some .filesystem_error)
      | some fs2 =>
        if !is_directory fs2 (dir ++ [seg]) then
          (fs2, some (.logic_error ("Directory /" ++ "/".intercalate (dir ++ [seg]) ++
            " does not exist and could not be created")))
        else make_directories fs2 (dir ++ [seg]) rest

/-- Embedding of `Repository::create_file(pathname, content)`; `cwd` is
`boost::filesystem::current_path()`. -/
def create_file (fs : FileSystem) (cwd : List String) (pathname : List String)
    (content : String) : FileSystem × Option Err :=
  let file := [".git"] ++ pathname
  let parent := file.dropLast
  match make_directories fs cwd parent with
  | (fs2, some e) => (fs2, some e)
  | (fs2, none) =>
    let file := cwd ++ file
    if fs_exists fs2 file && !is_regular_file fs2 file then
      (fs2, some (.logic_error ("/" ++ "/".intercalate file ++
        " already exists but is not a regular file")))
    else (ofstream_write fs2 file content, none)

/-- Modelled from the spec: the class `Branch` of gitutil.h, "name: string, commit:
CommitRef (nullable until first update)". The name is one path segment. -/
structure Branch where
  name : String
  commit : Option Commit

/-- Embedding of `Branch::update(repository, _commit)`. The `commit->sha1()` of
gitutil.h, the text of the identity of the commit, is the parameter `sha1`; the
state is the branch and the filesystem. -/
def Branch.update (ASSERTS : Bool) (σ : ObjectStore) (sha1 : Commit → String)
    (cwd : List String) (b : Branch) (fs : FileSystem) (c : Commit) (log : Log) :
    Res (Branch × FileSystem) :=
  let w := Commit.write ASSERTS σ c log
  let b := { b with commit := some w.val }
  match w.err with
  | some e => ⟨(b, fs), w.log, some e⟩
  | none =>
    let f := create_file fs cwd ["refs", "heads", b.name] (sha1 w.val)
    ⟨(b, f.1), w.log, f.2⟩

/-- Embedding of `Repository::read_commit(oid)`. The constructor `Commit(this,
git_commit)` of gitutil.h is modelled from the spec: the commit of that identity,
its tree null (the tree data is not loaded from the store). -/
def read_commit (σ : ObjectStore) (oid : Nat) (log : Log) : Res (Option Commit) :=
  let call := StoreCall.git_commit_lookup oid
  if σ.rc log call ≠ 0 then
    ⟨none, log ++ [call], some (.logic_error "Could not find Git commit")⟩
  else ⟨some (.mk oid none [] []), log ++ [call], none⟩

/-- The object a path resolves to in the tree of a commit; nothing resolves in a
commit without a tree. -/
def Commit.resolve (c : Commit) (path : List String) : Option Obj :=
  match c.tree with
  | none => none
  | some t => Git.resolve t path

/-- A filesystem with the working directory `/repo` and nothing in it. -/
def sample_fs : FileSystem := [(["repo"], .directory)]

/-- A filesystem in which the ref path of the branch `master` is a directory. -/
def blocked_fs : FileSystem :=
  [(["repo"], .directory), (["repo", ".git"], .directory),
   (["repo", ".git", "refs"], .directory), (["repo", ".git", "refs", "heads"], .directory),
   (["repo", ".git", "refs", "heads", "master"], .directory)]

/-- Text of an identity: its decimal digits. -/
def sample_sha1 (c : Commit) : String := toString c.oid

/-- The commit built by updates at `README` and `src/main` of a commit without a
tree. -/
def readme_commit : Commit :=
  (Commit.update false
    (Commit.update false create_commit ["README"] (mk_blob "README" 1) []).val
    ["src", "main"] (mk_blob "main" 2) []).val

/-- Some store remove-entry call issued after the log `before`, on the way to the
log `after`, reported failure. -/
def FailedRemove (σ : ObjectStore) (before after : Log) : Prop :=
  ∃ l tree name, before <+: l ∧
    l ++ [StoreCall.git_tree_remove_entry_byname tree name] <+: after ∧
    σ.rc l (StoreCall.git_tree_remove_entry_byname tree name) ≠ 0

/-- A store that refuses to remove the entry `x` and accepts every other call. -/
def keep_x_store : ObjectStore :=
  ⟨fun _ c => if c = StoreCall.git_tree_remove_entry_byname "" "x" then -1 else 0,
   fun g => g.length, fun t ps => 100 + t + ps.length⟩

mutual
/-- No entry of the tree, at any depth, maps to a subtree with an empty entries
mapping. -/
def Tree.no_empty_subtree : Tree → Bool
  | ⟨_, _, _, _, entries, _, _, _, _⟩ => entries_no_empty_subtree entries
/-- The object is a blob, or a subtree that has entries and satisfies
`Tree.no_empty_subtree`. -/
def Obj.no_empty_subtree : Obj → Bool
  | .blob _ => true
  | .tree ⟨_, _, _, _, entries, _, _, _, _⟩ =>
    !entries.isEmpty && entries_no_empty_subtree entries
/-- Every object of the mapping satisfies `Obj.no_empty_subtree`. -/
def entries_no_empty_subtree : List (String × Obj) → Bool
  | [] => true
  | (_, o) :: rest => Obj.no_empty_subtree o && entries_no_empty_subtree rest
end

mutual
/-- The tree with `written`, `modified` and the persisted entry list of itself and
of every subtree reset: two trees with the same image have the same entries mapping
at every level. -/
def Tree.forget_state : Tree → Tree
  | ⟨name, attributes, oid, tree_entry, entries, _, _, sort_needed, _⟩ =>
    ⟨name, attributes, oid, tree_entry, forget_state_entries entries, false, false,
     sort_needed, []⟩
/-- Image of an object under `Tree.forget_state`. -/
def Obj.forget_state : Obj → Obj
  | .blob b => .blob b
  | .tree t => .tree (Tree.forget_state t)
/-- Image of an entries mapping under `Tree.forget_state`. -/
def forget_state_entries : List (String × Obj) → List (String × Obj)
  | [] => []
  | (k, o) :: rest => (k, Obj.forget_state o) :: forget_state_entries rest
end

mutual
/-- The tree and every tree below it have `written = true` and `modified = false`. -/
def Tree.all_clean : Tree → Bool
  | ⟨_, _, _, _, entries, written, modified, _, _⟩ =>
    written && !modified && entries_all_clean entries
/-- The object is a blob or a tree satisfying `Tree.all_clean`. -/
def Obj.all_clean : Obj → Bool
  | .blob _ => true
  | .tree t => Tree.all_clean t
/-- Every object of the mapping satisfies `Obj.all_clean`. -/
def entries_all_clean : List (String × Obj) → Bool
  | [] => true
  | (_, o) :: rest => Obj.all_clean o && entries_all_clean rest
end

mutual
/-- Whenever a tree below this one has `modified = true` or `written = false`, every
tree on the way down to it, this one included, has `written = false`. -/
def Tree.dirty_marked : Tree → Bool
  | ⟨_, _, _, _, entries, written, _, _, _⟩ => entries_dirty_marked written entries
/-- The object, held by a tree whose `written` flag is `w`: a subtree satisfies
`Tree.dirty_marked`, and it satisfies `Tree.all_clean` unless `w` is false. -/
def Obj.dirty_marked (w : Bool) : Obj → Bool
  | .blob _ => true
  | .tree t => Tree.dirty_marked t && (Tree.all_clean t || !w)
/-- Every object of the mapping satisfies `Obj.dirty_marked w`. -/
def entries_dirty_marked (w : Bool) : List (String × Obj) → Bool
  | [] => true
  | (_, o) :: rest => Obj.dirty_marked w o && entries_dirty_marked w rest
end

/-- Every update of the sequence passes a blob. -/
def BlobUpdates (ops : List Op) : Prop :=
  ∀ path obj, Op.update path obj ∈ ops → obj.is_blob = true

/-- A sequence of calls for C18 that leaves dirty subtrees behind: two blobs are
added, the tree is written, and a third blob is added below `a/b`. -/
def dirty_ops : List Op :=
  [.update ["a", "b", "c.txt"] (mk_blob "c.txt" 1), .update ["README"] (mk_blob "README" 2),
   .write, .update ["a", "b", "d.txt"] (mk_blob "d.txt" 3)]

/-- A memory for C13: one commit, at address 0, that points to the `Tree` object at
address 0, the tree that holds only a/b/c.txt. -/
def sample_memory : Memory := ⟨[sample_tree], [⟨0, some 0, [], []⟩]⟩

/-! ## Lemmas on `entries_map` -/

theorem entries_find_insert_sorted_self {α : Type} (es : List (String × α)) (name : String)
    (v : α) (h : entries_find es name = none) :
    entries_find (entries_insert_sorted es name v) name = some v := by
  induction es with
  | nil => simp [entries_insert_sorted, entries_find]
  | cons e es ih =>
    obtain ⟨k, w⟩ := e
    simp only [entries_find] at h
    by_cases hk : k = name
    · simp [hk] at h
    · simp only [hk, if_false] at h
      simp only [entries_insert_sorted]
      split
      · simp [entries_find]
      · simp [entries_find, hk, ih h]

theorem entries_find_insert_sorted_ne {α : Type} (es : List (String × α)) (name m : String)
    (v : α) (h : m ≠ name) :
    entries_find (entries_insert_sorted es name v) m = entries_find es m := by
  induction es with
  | nil => simp [entries_insert_sorted, entries_find, Ne.symm h]
  | cons e es ih =>
    obtain ⟨k, w⟩ := e
    simp only [entries_insert_sorted]
    split
    · simp [entries_find, Ne.symm h]
    · simp [entries_find, ih]

theorem entries_find_insert_self {α : Type} (es : List (String × α)) (name : String) (v : α)
    (h : entries_find es name = none) :
    entries_find (entries_insert es name v) name = some v := by
  simp [entries_insert, h, entries_find_insert_sorted_self]

theorem entries_find_insert_ne {α : Type} (es : List (String × α)) (name m : String) (v : α)
    (h : m ≠ name) : entries_find (entries_insert es name v) m = entries_find es m := by
  unfold entries_insert
  split
  · rfl
  · exact entries_find_insert_sorted_ne es name m v h

theorem entries_find_assign_self {α : Type} (es : List (String × α)) (name : String) (v w : α)
    (h : entries_find es name = some w) :
    entries_find (entries_assign es name v) name = some v := by
  induction es with
  | nil => simp [entries_find] at h
  | cons e es ih =>
    obtain ⟨k, u⟩ := e
    simp only [entries_find] at h
    by_cases hk : k = name
    · simp [entries_assign, entries_find, hk]
    · simp only [hk, if_false] at h
      simp [entries_assign, entries_find, hk, ih h]

theorem entries_find_assign_ne {α : Type} (es : List (String × α)) (name m : String) (v : α)
    (h : m ≠ name) : entries_find (entries_assign es name v) m = entries_find es m := by
  induction es with
  | nil => simp [entries_assign, entries_find]
  | cons e es ih =>
    obtain ⟨k, u⟩ := e
    by_cases hk : k = name
    · subst hk
      simp [entries_assign, entries_find, Ne.symm h, ih]
    · simp [entries_assign, entries_find, hk, ih]

theorem entries_find_erase_self {α : Type} (es : List (String × α)) (name : String) :
    entries_find (entries_erase es name) name = none := by
  induction es with
  | nil => simp [entries_erase, entries_find]
  | cons e es ih =>
    obtain ⟨k, u⟩ := e
    by_cases hk : k = name
    · simp [entries_erase, hk, ih]
    · simp [entries_erase, entries_find, hk, ih]

theorem entries_find_erase_ne {α : Type} (es : List (String × α)) (name m : String)
    (h : m ≠ name) : entries_find (entries_erase es name) m = entries_find es m := by
  induction es with
  | nil => simp [entries_erase, entries_find]
  | cons e es ih =>
    obtain ⟨k, u⟩ := e
    by_cases hk : k = name
    · subst hk
      simp [entries_erase, entries_find, Ne.symm h, ih]
    · simp [entries_erase, entries_find, hk, ih]

theorem Obj.set_tree_entry_self (obj : Obj) : obj.set_tree_entry obj.tree_entry = obj := by
  cases obj <;> rfl

theorem Obj.name_set_tree_entry (obj : Obj) (te : Option Nat) :
    (obj.set_tree_entry te).name = obj.name := by
  cases obj <;> rfl

theorem PathOk_of_entries_nil (t : Tree) (h : t.entries = []) (path : List String) :
    PathOk t path := by
  match path with
  | [] => simp [PathOk]
  | [_] => simp [PathOk]
  | a :: b :: rest => simp [PathOk, h, entries_find]

theorem do_update_reaches (ASSERTS : Bool) (rest : List String) :
    ∀ (t : Tree) (name : String) (obj : Obj) (log : Log),
      PathOk t (name :: rest) → (name :: rest).getLast? = some obj.name →
      (do_update ASSERTS t name rest obj log).err = none ∧
      (∃ te, resolve (do_update ASSERTS t name rest obj log).val (name :: rest)
        = some (obj.set_tree_entry te)) ∧
      ∀ pre, pre <+: name :: rest → pre ≠ name :: rest →
        ∃ sub, subtree_at (do_update ASSERTS t name rest obj log).val pre = some sub := by
  induction rest with
  | nil =>
    intro t name obj log _ hname
    have hn : name = obj.name := by simpa using hname
    have hpre : ∀ (u : Tree) (pre : List String), pre <+: [name] → pre ≠ [name] →
        ∃ sub, subtree_at u pre = some sub := by
      intro u pre hp hne
      match pre, hp, hne with
      | [], _, _ => exact ⟨u, rfl⟩
      | [a], hp, hne =>
        have : a = name := by simpa using hp
        exact absurd (by rw [this]) hne
      | a :: b :: l, hp, _ =>
        have := hp.length_le
        simp at this
    simp only [do_update]
    have hA : (ASSERTS && decide (name ≠ obj.name)) = false := by simp [hn]
    rw [hA]
    simp only [Bool.false_eq_true, if_false]
    cases hf : entries_find t.entries name with
    | none =>
      refine ⟨rfl, ⟨obj.tree_entry, ?_⟩, fun pre hp hne => hpre _ pre hp hne⟩
      simp [resolve, entries_find_insert_self _ _ _ hf, Obj.set_tree_entry_self]
    | some curr =>
      by_cases hb : obj.is_blob = true
      · have hn2 : name = (obj.set_tree_entry curr.tree_entry).name := by
          rw [Obj.name_set_tree_entry]; exact hn
        simp only [hb, if_true]
        rw [if_neg (not_not.mpr hn2)]
        refine ⟨rfl, ⟨curr.tree_entry, ?_⟩, fun pre hp hne => hpre _ pre hp hne⟩
        simp [resolve, entries_find_assign_self _ _ _ _ hf]
      · simp only [hb, if_false]
        refine ⟨rfl, ⟨obj.tree_entry, ?_⟩, fun pre hp hne => hpre _ pre hp hne⟩
        simp [resolve, entries_find_assign_self _ _ _ _ hf, Obj.set_tree_entry_self]
  | cons next rest ih =>
    intro t name obj log hok hname
    have hname2 : (next :: rest).getLast? = some obj.name := by
      simpa [List.getLast?_cons_cons] using hname
    simp only [do_update]
    cases hf : entries_find t.entries name with
    | none =>
      have hsub := ih (create_tree name) next obj log
        (PathOk_of_entries_nil _ rfl _) hname2
      obtain ⟨herr, ⟨te, hres⟩, hpre⟩ := hsub
      simp only [herr]
      refine ⟨trivial, ⟨te, ?_⟩, ?_⟩
      · simp [resolve, entries_find_insert_self _ _ _ hf, hres]
      · intro pre hp hne
        match pre, hp, hne with
        | [], _, _ => exact ⟨_, rfl⟩
        | a :: pre2, hp, hne =>
          have ha : a = name := by
            have := hp; rw [List.cons_prefix_cons] at this; exact this.1
          have hp2 : pre2 <+: next :: rest := by
            rw [List.cons_prefix_cons] at hp; exact hp.2
          have hne2 : pre2 ≠ next :: rest := by
            intro h; exact hne (by rw [ha, h])
          obtain ⟨sub, hs⟩ := hpre pre2 hp2 hne2
          exact ⟨sub, by simp [subtree_at, ha, entries_find_insert_self _ _ _ hf, hs]⟩
    | some curr =>
      cases curr with
      | blob b => simp [PathOk, hf] at hok
      | tree sub0 =>
        have hok2 : PathOk sub0 (next :: rest) := by simpa [PathOk, hf] using hok
        obtain ⟨herr, ⟨te, hres⟩, hpre⟩ := ih sub0 next obj log hok2 hname2
        simp only [herr]
        refine ⟨trivial, ⟨te, ?_⟩, ?_⟩
        · simp [resolve, entries_find_assign_self _ _ _ _ hf, hres]
        · intro pre hp hne
          match pre, hp, hne with
          | [], _, _ => exact ⟨_, rfl⟩
          | a :: pre2, hp, hne =>
            have ha : a = name := by
              have := hp; rw [List.cons_prefix_cons] at this; exact this.1
            have hp2 : pre2 <+: next :: rest := by
              rw [List.cons_prefix_cons] at hp; exact hp.2
            have hne2 : pre2 ≠ next :: rest := by
              intro h; exact hne (by rw [ha, h])
            obtain ⟨sub, hs⟩ := hpre pre2 hp2 hne2
            exact ⟨sub, by simp [subtree_at, ha, entries_find_assign_self _ _ _ _ hf, hs]⟩

/-! ## The object is reached after `update` -/

/-- C1: for every tree, every path in which each non-final segment names either no
entry or a subtree entry, and every object whose name equals the final segment,
`update` returns, following the path from the resulting tree reaches the object
passed (its `tree_entry` member as `update` assigned it), and every proper prefix of
the path leads to a subtree. -/
theorem update_reaches_object (ASSERTS : Bool) (t : Tree) (path : List String) (obj : Obj)
    (log : Log) (hok : PathOk t path) (hname : path.getLast? = some obj.name) :
    (update ASSERTS t path obj log).err = none ∧
    (∃ te, resolve (update ASSERTS t path obj log).val path
      = some (obj.set_tree_entry te)) ∧
    ∀ pre, pre <+: path → pre ≠ path →
      ∃ sub, subtree_at (update ASSERTS t path obj log).val pre = some sub := by
  cases path with
  | nil => simp at hname
  | cons name rest => exact do_update_reaches ASSERTS rest t name obj log hok hname

/-- C1, instance: the path a/b/c.txt in a new tree. -/
theorem update_reaches_object_witness :
    PathOk (create_tree "") ["a", "b", "c.txt"] ∧
    ["a", "b", "c.txt"].getLast? = some (mk_blob "c.txt" 1).name ∧
    (update true (create_tree "") ["a", "b", "c.txt"] (mk_blob "c.txt" 1) []).err = none ∧
    (∃ te, resolve (update true (create_tree "") ["a", "b", "c.txt"] (mk_blob "c.txt" 1) []).val
      ["a", "b", "c.txt"] = some ((mk_blob "c.txt" 1).set_tree_entry te)) ∧
    ∀ pre, pre <+: ["a", "b", "c.txt"] → pre ≠ ["a", "b", "c.txt"] →
      ∃ sub, subtree_at
        (update true (create_tree "") ["a", "b", "c.txt"] (mk_blob "c.txt" 1) []).val pre
        = some sub :=
  ⟨PathOk_of_entries_nil _ rfl _, rfl,
   update_reaches_object true (create_tree "") ["a", "b", "c.txt"] (mk_blob "c.txt" 1) []
     (PathOk_of_entries_nil _ rfl _) rfl⟩

/-! ## Lemmas on `Tree::write` -/

theorem write_entries_keys (σ : ObjectStore) (tree : String) (es : List (String × Obj)) :
    ∀ (git : List GitEntry) (log : Log),
      (write_entries σ tree es git log).val.1.map Prod.fst = es.map Prod.fst := by
  induction es with
  | nil => intro git log; simp [write_entries]
  | cons e es ih =>
    intro git log
    obtain ⟨k, o⟩ := e
    simp only [write_entries]
    split
    · simp
    · split
      · simp
      · simp [ih]

theorem object_write_ok (σ : ObjectStore) (t : Tree) (log : Log)
    (h : (object_write σ t log).err = none) :
    (object_write σ t log).val.written = true ∧ (object_write σ t log).val.modified = false ∧
    (object_write σ t log).val.entries = t.entries := by
  unfold object_write at h ⊢
  by_cases hrc : σ.rc log (StoreCall.git_object_write t.name) ≠ 0
  · simp [hrc] at h
  · simp [hrc]

theorem Tree.write_of_empty (σ : ObjectStore) (t : Tree) (log : Log)
    (h : t.entries = []) : Tree.write σ t log = ⟨t, log, none⟩ := by
  cases t
  simp only at h
  simp [Tree.write, h]

theorem Tree.write_of_clean (σ : ObjectStore) (t : Tree) (log : Log)
    (hw : t.written = true) (hm : t.modified = false) : Tree.write σ t log = ⟨t, log, none⟩ := by
  cases t
  simp only at hw hm
  simp [Tree.write, hw, hm]

theorem Tree.write_ok (σ : ObjectStore) (t : Tree) (log : Log)
    (h : (Tree.write σ t log).err = none) (hne : t.entries ≠ []) :
    (Tree.write σ t log).val.written = true ∧ (Tree.write σ t log).val.modified = false ∧
    (Tree.write σ t log).val.entries.map Prod.fst = t.entries.map Prod.fst := by
  obtain ⟨name, attributes, oid, tree_entry, entries, written, modified, sort_needed, git⟩ := t
  simp only at hne
  have hemp : entries.isEmpty = false := by
    cases entries with
    | nil => exact absurd rfl hne
    | cons _ _ => rfl
  simp only [Tree.write, hemp] at h ⊢
  have key : ∀ (u : Tree) (l : Log), (object_write σ u l).err = none →
      u.entries.map Prod.fst = entries.map Prod.fst →
      (object_write σ u l).val.written = true ∧ (object_write σ u l).val.modified = false ∧
      (object_write σ u l).val.entries.map Prod.fst = entries.map Prod.fst := by
    intro u l hu he
    obtain ⟨h1, h2, h3⟩ := object_write_ok σ u l hu
    exact ⟨h1, h2, by rw [h3]; exact he⟩
  cases written <;> cases modified <;> cases sort_needed <;>
    simp only [↓reduceIte, Bool.false_eq_true] at h ⊢
  all_goals first
    | exact key _ _ h rfl
    | exact ⟨trivial, trivial, trivial⟩
    | (split at h
       · exact absurd h (by simp)
       · exact key _ _ h (write_entries_keys σ _ _ _ _))

/-- C3: if `write()` returns without error, a second `write()` with no update or
remove in between issues no store call (the log is the one the first call left,
whatever the store would answer) and leaves the tree exactly as the first call left
it. -/
theorem write_idempotent (σ σ2 : ObjectStore) (t : Tree) (log : Log)
    (h : (Tree.write σ t log).err = none) :
    Tree.write σ2 (Tree.write σ t log).val (Tree.write σ t log).log
      = ⟨(Tree.write σ t log).val, (Tree.write σ t log).log, none⟩ := by
  by_cases hne : t.entries = []
  · rw [Tree.write_of_empty σ t log hne]
    exact Tree.write_of_empty σ2 t log hne
  · obtain ⟨hw, hm, _⟩ := Tree.write_ok σ t log h hne
    exact Tree.write_of_clean σ2 _ _ hw hm

/-- C3, instance: the second write is answered by a store that would fail every
call. -/
theorem write_idempotent_witness :
    (Tree.write ok_store sample_tree []).err = none ∧
    Tree.write failing_store (Tree.write ok_store sample_tree []).val
        (Tree.write ok_store sample_tree []).log
      = ⟨(Tree.write ok_store sample_tree []).val, (Tree.write ok_store sample_tree []).log,
         none⟩ :=
  ⟨rfl, write_idempotent ok_store failing_store sample_tree [] rfl⟩

/-! ## Replacing, adding and removing entries -/

theorem entries_assign_keys {α : Type} (es : List (String × α)) (name : String) (v : α) :
    (entries_assign es name v).map Prod.fst = es.map Prod.fst := by
  induction es with
  | nil => rfl
  | cons e es ih =>
    obtain ⟨k, u⟩ := e
    by_cases hk : k = name <;> simp [entries_assign, hk, ih]

theorem entries_ne_nil_of_find {α : Type} (es : List (String × α)) (name : String) (v : α)
    (h : entries_find es name = some v) : es ≠ [] := by
  intro he
  simp [he, entries_find] at h

theorem isEmpty_eq_false_of_keys {α β : Type} (es : List (String × α)) (fs : List (String × β))
    (h : es.map Prod.fst = fs.map Prod.fst) (hne : fs ≠ []) : es.isEmpty = false := by
  cases es with
  | nil =>
    cases fs with
    | nil => exact absurd rfl hne
    | cons _ _ => simp at h
  | cons _ _ => rfl

theorem object_write_log (σ : ObjectStore) (t : Tree) (log : Log) :
    (object_write σ t log).log = log ++ [StoreCall.git_object_write t.name] := by
  simp only [object_write]
  split <;> rfl

/-- C4: on a tree with `written = true` that holds an entry named `n`, `update` with
the one-segment path `n` and a blob named `n` returns, leaves `written = true`,
leaves the entry names as they were and binds `n` to the new object; the next
`write()` then issues only the calls of the patch branch (a sort when `sort_needed`,
and the object write), so it neither clears nor re-adds the entries. -/
theorem update_blob_in_place (ASSERTS : Bool) (σ : ObjectStore) (t : Tree) (n : String)
    (obj curr : Obj) (log log2 : Log) (hw : t.written = true)
    (hn : entries_find t.entries n = some curr) (hb : obj.is_blob = true)
    (hname : obj.name = n) :
    (update ASSERTS t [n] obj log).err = none ∧
    (update ASSERTS t [n] obj log).val.written = true ∧
    (update ASSERTS t [n] obj log).val.entries.map Prod.fst = t.entries.map Prod.fst ∧
    entries_find (update ASSERTS t [n] obj log).val.entries n
      = some (obj.set_tree_entry curr.tree_entry) ∧
    (Tree.write σ (update ASSERTS t [n] obj log).val log2).log
      = log2 ++ (if t.sort_needed then [StoreCall.git_tree_sort_entries t.name] else [])
          ++ [StoreCall.git_object_write t.name] := by
  obtain ⟨name, attributes, oid, tree_entry, entries, written, modified, sort_needed, git⟩ := t
  simp only at hw hn
  subst hw
  have hA : (ASSERTS && decide (n ≠ obj.name)) = false := by simp [hname]
  have hn2 : n = (obj.set_tree_entry curr.tree_entry).name := by
    rw [Obj.name_set_tree_entry]; exact hname.symm
  have hemp : (entries_assign entries n (obj.set_tree_entry curr.tree_entry)).isEmpty = false :=
    isEmpty_eq_false_of_keys _ entries (entries_assign_keys _ _ _)
      (entries_ne_nil_of_find _ _ _ hn)
  simp only [update, do_update, hA, hn, hb, if_true, Bool.false_eq_true, if_false]
  rw [if_neg (not_not.mpr hn2)]
  refine ⟨rfl, rfl, entries_assign_keys _ _ _, entries_find_assign_self _ _ _ _ hn, ?_⟩
  simp only [Tree.write, hemp, Bool.false_eq_true, if_false, if_true]
  cases sort_needed <;> simp [object_write_log]

/-- C4, instance: a written tree holding `f`, whose blob is replaced. -/
theorem update_blob_in_place_witness :
    written_tree.written = true ∧
    entries_find written_tree.entries "f" = some (written_blob "f" 1 1) ∧
    (mk_blob "f" 2).is_blob = true ∧ (mk_blob "f" 2).name = "f" ∧
    (update true written_tree ["f"] (mk_blob "f" 2) []).err = none ∧
    (update true written_tree ["f"] (mk_blob "f" 2) []).val.written = true ∧
    (update true written_tree ["f"] (mk_blob "f" 2) []).val.entries.map Prod.fst
      = written_tree.entries.map Prod.fst ∧
    entries_find (update true written_tree ["f"] (mk_blob "f" 2) []).val.entries "f"
      = some ((mk_blob "f" 2).set_tree_entry (written_blob "f" 1 1).tree_entry) ∧
    (Tree.write ok_store (update true written_tree ["f"] (mk_blob "f" 2) []).val []).log
      = [] ++ (if written_tree.sort_needed then
                [StoreCall.git_tree_sort_entries written_tree.name] else [])
          ++ [StoreCall.git_object_write written_tree.name] :=
  ⟨rfl, rfl, rfl, rfl,
   update_blob_in_place true ok_store written_tree "f" (mk_blob "f" 2) (written_blob "f" 1 1)
     [] []
     rfl rfl rfl rfl⟩

theorem resolve_of_entries_nil (t : Tree) (h : t.entries = []) (path : List String) :
    resolve t path = none := by
  match path with
  | [] => rfl
  | [_] => simp [resolve, h, entries_find]
  | _ :: _ :: _ => simp [resolve, h, entries_find]

theorem do_update_clears_written (ASSERTS : Bool) (obj : Obj) (rest : List String) :
    ∀ (t : Tree) (name : String) (log : Log),
      (do_update ASSERTS t name rest obj log).err = none →
      (resolve t (name :: rest) = none ∨ obj.is_blob = false) →
      ∃ holder, subtree_at (do_update ASSERTS t name rest obj log).val (name :: rest).dropLast
        = some holder ∧ holder.written = false := by
  induction rest with
  | nil =>
    intro t name log hret h
    simp only [List.dropLast_single, subtree_at]
    refine ⟨_, rfl, ?_⟩
    simp only [do_update] at hret ⊢
    split at hret
    · simp at hret
    · rename_i hA
      simp only [hA, if_false]
      cases hf : entries_find t.entries name with
      | none => rfl
      | some curr =>
        have hb : obj.is_blob = false := by
          rcases h with h | h
          · simp [resolve, hf] at h
          · exact h
        simp [hb]
  | cons next rest ih =>
    intro t name log hret h
    simp only [do_update] at hret ⊢
    cases hf : entries_find t.entries name with
    | none =>
      simp only [hf] at hret
      have hsub : (do_update ASSERTS (create_tree name) next rest obj log).err = none := by
        cases he : (do_update ASSERTS (create_tree name) next rest obj log).err with
        | none => rfl
        | some e => simp [he] at hret
      obtain ⟨holder, hh, hw⟩ := ih (create_tree name) next log hsub
        (Or.inl (resolve_of_entries_nil _ rfl _))
      refine ⟨holder, ?_, hw⟩
      simp [hsub, List.dropLast, subtree_at, entries_find_insert_self _ _ _ hf, hh]
    | some curr =>
      cases curr with
      | blob b => simp [hf] at hret
      | tree sub0 =>
        simp only [hf] at hret
        have hsub : (do_update ASSERTS sub0 next rest obj log).err = none := by
          cases he : (do_update ASSERTS sub0 next rest obj log).err with
          | none => rfl
          | some e => simp [he] at hret
        have h2 : resolve sub0 (next :: rest) = none ∨ obj.is_blob = false := by
          rcases h with h | h
          · left; simpa [resolve, hf] using h
          · exact Or.inr h
        obtain ⟨holder, hh, hw⟩ := ih sub0 next log hsub h2
        refine ⟨holder, ?_, hw⟩
        simp [hsub, List.dropLast, subtree_at, entries_find_assign_self _ _ _ _ hf, hh]

theorem do_update_returns (ASSERTS : Bool) (obj : Obj) (rest : List String) :
    ∀ (t : Tree) (name : String) (log : Log), PathOk t (name :: rest) →
      (ASSERTS = false ∨ (name :: rest).getLast? = some obj.name) →
      (do_update ASSERTS t name rest obj log).err = none := by
  induction rest with
  | nil =>
    intro t name log _ ha
    have hA : (ASSERTS && decide (name ≠ obj.name)) = false := by
      rcases ha with ha | ha
      · simp [ha]
      · have hn : name = obj.name := by simpa using ha
        simp [hn]
    simp only [do_update, hA, Bool.false_eq_true, if_false]
    repeat' split
    all_goals rfl
  | cons next rest ih =>
    intro t name log hok ha
    have ha2 : ASSERTS = false ∨ (next :: rest).getLast? = some obj.name := by
      rcases ha with ha | ha
      · exact Or.inl ha
      · exact Or.inr (by simpa [List.getLast?_cons_cons] using ha)
    simp only [do_update]
    cases hf : entries_find t.entries name with
    | none =>
      simp only [ih (create_tree name) next log (PathOk_of_entries_nil _ rfl _) ha2]
    | some curr =>
      cases curr with
      | blob b => simp [PathOk, hf] at hok
      | tree sub =>
        have hok2 : PathOk sub (next :: rest) := by simpa [PathOk, hf] using hok
        simp only [ih sub next log hok2 ha2]

/-- C5: take an update along a path whose non-final segments name subtrees or
nothing, with the object named as the final segment unless the build has no
`ASSERTS`. If the path named no existing entry, or the incoming object is not a
blob, the update returns and the tree that holds the final segment (reached by the
path without its last segment) has `written = false`, whatever it was before. -/
theorem update_forces_rebuild (ASSERTS : Bool) (t : Tree) (path : List String) (obj : Obj)
    (log : Log) (hpath : path ≠ []) (hok : PathOk t path)
    (hassert : ASSERTS = false ∨ path.getLast? = some obj.name)
    (h : resolve t path = none ∨ obj.is_blob = false) :
    (update ASSERTS t path obj log).err = none ∧
    ∃ holder, subtree_at (update ASSERTS t path obj log).val path.dropLast = some holder ∧
      holder.written = false := by
  cases path with
  | nil => exact absurd rfl hpath
  | cons name rest =>
    have hret := do_update_returns ASSERTS obj rest t name log hok hassert
    exact ⟨hret, do_update_clears_written ASSERTS obj rest t name log hret h⟩

/-- C5, instance: a new entry below the written subtree `x`. -/
theorem update_forces_rebuild_witness :
    ["x", "new.txt"] ≠ [] ∧ PathOk written_tree ["x", "new.txt"] ∧
    (true = false ∨ ["x", "new.txt"].getLast? = some (mk_blob "new.txt" 5).name) ∧
    (resolve written_tree ["x", "new.txt"] = none ∨ (mk_blob "new.txt" 5).is_blob = false) ∧
    (update true written_tree ["x", "new.txt"] (mk_blob "new.txt" 5) []).err = none ∧
    ∃ holder, subtree_at (update true written_tree ["x", "new.txt"] (mk_blob "new.txt" 5) []).val
        ["x", "new.txt"].dropLast = some holder ∧ holder.written = false :=
  ⟨by simp, trivial, Or.inr rfl, Or.inl rfl,
   update_forces_rebuild true written_tree ["x", "new.txt"] (mk_blob "new.txt" 5) []
     (by simp) trivial (Or.inr rfl) (Or.inl rfl)⟩

/-- C6, counterexample: removing the entry `f` of a written tree returns with
`written` still true. -/
theorem remove_forces_rebuild_counterexample :
    written_tree.written = true ∧
    entries_find written_tree.entries "f" = some (written_blob "f" 1 1) ∧
    (remove ok_store written_tree ["f"] []).err = none ∧
    (remove ok_store written_tree ["f"] []).val.written ≠ false :=
  ⟨rfl, rfl, rfl, by decide⟩

/-- C6, amended: on a tree with `written = true` that holds an entry named `n`,
`remove` with the one-segment path `n` does not touch `written` (it stays true); it
sets `modified = true`, erases `n` from the mapping and issues exactly one store
call, the removal of the persisted entry `n` of this tree. -/
theorem remove_entry_in_place (σ : ObjectStore) (t : Tree) (n : String) (curr : Obj)
    (log : Log) (hw : t.written = true) (hn : entries_find t.entries n = some curr) :
    (remove σ t [n] log).val.written = true ∧
    (remove σ t [n] log).val.modified = true ∧
    entries_find (remove σ t [n] log).val.entries n = none ∧
    (remove σ t [n] log).log = log ++ [StoreCall.git_tree_remove_entry_byname t.name n] := by
  simp only [remove, do_remove, hn]
  split <;> exact ⟨hw, rfl, entries_find_erase_self _ _, rfl⟩

/-- C6, instance: the entry `f` of the written tree. -/
theorem remove_entry_in_place_witness :
    written_tree.written = true ∧
    entries_find written_tree.entries "f" = some (written_blob "f" 1 1) ∧
    (remove ok_store written_tree ["f"] []).val.written = true ∧
    (remove ok_store written_tree ["f"] []).val.modified = true ∧
    entries_find (remove ok_store written_tree ["f"] []).val.entries "f" = none ∧
    (remove ok_store written_tree ["f"] []).log
      = [] ++ [StoreCall.git_tree_remove_entry_byname written_tree.name "f"] :=
  ⟨rfl, rfl, remove_entry_in_place ok_store written_tree "f" (written_blob "f" 1 1) [] rfl rfl⟩

theorem do_remove_prunes (σ : ObjectStore)
    (hstore : ∀ l tree name, σ.rc l (StoreCall.git_tree_remove_entry_byname tree name) = 0)
    (rest : List String) :
    ∀ (t : Tree) (name : String) (log : Log), SingleChain t (name :: rest) →
      (do_remove σ t name rest log).err = none ∧
      entries_find (do_remove σ t name rest log).val.entries name = none ∧
      ∀ o, t.entries = [(name, o)] → (do_remove σ t name rest log).val.entries = [] := by
  induction rest with
  | nil =>
    intro t name log hc
    obtain ⟨o, hf⟩ := hc
    simp only [do_remove, hf, hstore, ne_eq, not_true_eq_false, if_false]
    refine ⟨trivial, entries_find_erase_self _ _, ?_⟩
    intro o2 he
    simp [he, entries_erase]
  | cons next rest ih =>
    intro t name log hc
    obtain ⟨sub, hf, ⟨o, hsub⟩, hc2⟩ := hc
    obtain ⟨herr, _, hnil⟩ := ih sub next log hc2
    have hempty : (do_remove σ sub next rest log).val.empty = true := by
      simp [TreeOf.empty, hnil o hsub]
    simp only [do_remove, hf, herr, hempty, hstore, ne_eq, not_true_eq_false, if_false, if_true]
    refine ⟨trivial, entries_find_erase_self _ _, ?_⟩
    intro o2 he
    simp [he, entries_assign, entries_erase]

/-- C7: when the path s1/.../sk resolves in the tree, every subtree below the root
along it holds exactly one entry, and the store's remove-entry calls succeed,
`remove` returns and the root mapping no longer binds s1; when s1 was the only entry
of the root, the root's mapping is left empty. -/
theorem remove_prunes_empty_subtrees (σ : ObjectStore) (t : Tree) (s1 : String)
    (rest : List String) (log : Log) (hchain : SingleChain t (s1 :: rest))
    (hstore : ∀ l tree name, σ.rc l (StoreCall.git_tree_remove_entry_byname tree name) = 0) :
    (remove σ t (s1 :: rest) log).err = none ∧
    entries_find (remove σ t (s1 :: rest) log).val.entries s1 = none ∧
    ∀ o, t.entries = [(s1, o)] → (remove σ t (s1 :: rest) log).val.entries = [] :=
  do_remove_prunes σ hstore rest t s1 log hchain

/-- C7, instance: on the tree that holds only a/b/c.txt, removing a/b/c.txt leaves
the root without entries. -/
theorem remove_prunes_empty_subtrees_witness :
    SingleChain sample_tree ["a", "b", "c.txt"] ∧
    (∀ l tree name,
      ok_store.rc l (StoreCall.git_tree_remove_entry_byname tree name) = 0) ∧
    (remove ok_store sample_tree ["a", "b", "c.txt"] []).err = none ∧
    entries_find (remove ok_store sample_tree ["a", "b", "c.txt"] []).val.entries "a" = none ∧
    (remove ok_store sample_tree ["a", "b", "c.txt"] []).val.entries = [] :=
  have hc : SingleChain sample_tree ["a", "b", "c.txt"] :=
    ⟨_, rfl, ⟨_, rfl⟩, _, rfl, ⟨_, rfl⟩, _, rfl⟩
  have h := remove_prunes_empty_subtrees ok_store sample_tree "a" ["b", "c.txt"] [] hc
    (fun _ _ _ => rfl)
  ⟨hc, fun _ _ _ => rfl, h.1, h.2.1, h.2.2 _ rfl⟩

/-! ## Removing a path that is absent -/

theorem Tree.forget_flags_entries_eq (t : Tree) :
    (Tree.forget_flags t).entries = forget_flags_entries t.entries := by
  cases t; simp [Tree.forget_flags]

theorem forget_flags_entries_eq_nil (es : List (String × Obj))
    (h : forget_flags_entries es = []) : es = [] := by
  cases es with
  | nil => rfl
  | cons e es => obtain ⟨k, o⟩ := e; simp [forget_flags_entries] at h

theorem entries_ne_nil_of_forget_flags (s t : Tree)
    (h : Tree.forget_flags s = Tree.forget_flags t) (hne : t.entries ≠ []) : s.entries ≠ [] := by
  intro hs
  have h1 := Tree.forget_flags_entries_eq s
  have h2 := Tree.forget_flags_entries_eq t
  rw [h, h2, hs] at h1
  exact hne (forget_flags_entries_eq_nil _ (by simpa [forget_flags_entries] using h1))

theorem forget_flags_entries_assign (es : List (String × Obj)) (name : String) (s t : Tree)
    (hf : entries_find es name = some (.tree t))
    (h : Tree.forget_flags s = Tree.forget_flags t) :
    forget_flags_entries (entries_assign es name (.tree s)) = forget_flags_entries es := by
  induction es with
  | nil => rfl
  | cons e es ih =>
    obtain ⟨k, o⟩ := e
    by_cases hk : k = name
    · simp only [entries_find, hk, if_true, Option.some.injEq] at hf
      simp [entries_assign, hk, forget_flags_entries, hf, Obj.forget_flags, h]
    · simp only [entries_find, hk, if_false] at hf
      simp [entries_assign, hk, forget_flags_entries, ih hf]

theorem Tree.forget_flags_set (t : Tree) (w m : Bool) (es : List (String × Obj))
    (h : forget_flags_entries es = forget_flags_entries t.entries) :
    Tree.forget_flags { t with written := w, modified := m, entries := es }
      = Tree.forget_flags t := by
  cases t; simp only [Tree.forget_flags] at h ⊢; rw [h]

theorem do_remove_absent (σ : ObjectStore) (rest : List String) :
    ∀ (t : Tree) (name : String) (log : Log), AbsentPath t (name :: rest) →
      (do_remove σ t name rest log).err = none ∧
      (do_remove σ t name rest log).log = log ∧
      Tree.forget_flags (do_remove σ t name rest log).val = Tree.forget_flags t := by
  induction rest with
  | nil =>
    intro t name log h
    have hf : entries_find t.entries name = none := h
    simp only [do_remove, hf]
    exact ⟨trivial, trivial, Tree.forget_flags_set t t.written true t.entries rfl⟩
  | cons next rest ih =>
    intro t name log h
    simp only [do_remove]
    cases hf : entries_find t.entries name with
    | none => exact ⟨rfl, rfl, Tree.forget_flags_set t t.written true t.entries rfl⟩
    | some curr =>
      cases curr with
      | blob b => simp [AbsentPath, hf] at h
      | tree sub =>
        have h2 : sub.entries ≠ [] ∧ AbsentPath sub (next :: rest) := by
          simpa [AbsentPath, hf] using h
        obtain ⟨herr, hlog, hsame⟩ := ih sub next log h2.2
        have hne : (do_remove σ sub next rest log).val.entries ≠ [] :=
          entries_ne_nil_of_forget_flags _ _ hsame h2.1
        have hemp : (do_remove σ sub next rest log).val.empty = false := by
          cases he : (do_remove σ sub next rest log).val.entries with
          | nil => exact absurd he hne
          | cons _ _ => simp [TreeOf.empty, he]
        simp only [herr, hemp, Bool.false_eq_true, if_false]
        exact ⟨trivial, hlog,
          Tree.forget_flags_set t false true _ (forget_flags_entries_assign _ _ _ _ hf hsame)⟩

/-- C9, counterexample: in the tree whose entry `x` is a subtree without entries the
path x/a does not resolve and `x` names a subtree, yet `remove` issues a store
remove-entry call and erases `x` from the root mapping. -/
theorem remove_absent_counterexample :
    resolve empty_dir_tree ["x", "a"] = none ∧ PathOk empty_dir_tree ["x", "a"] ∧
    (remove ok_store empty_dir_tree ["x", "a"] []).log
      = [StoreCall.git_tree_remove_entry_byname "" "x"] ∧
    empty_dir_tree.entries.map Prod.fst = ["x"] ∧
    (remove ok_store empty_dir_tree ["x", "a"] []).val.entries.map Prod.fst = [] :=
  ⟨rfl, by simp [PathOk, empty_dir_tree, update, do_update, create_tree, entries_find,
      entries_insert, entries_insert_sorted], rfl, rfl, rfl⟩

/-- C9, amended: when the path does not resolve to an entry and every existing
non-final segment names a subtree that has at least one entry, `remove` raises no
error, issues no store call, and leaves the entries mapping of the tree and of every
subtree unchanged (the tree differs from the one before in `written` and `modified`
flags only). -/
theorem remove_absent_is_noop (σ : ObjectStore) (t : Tree) (path : List String) (log : Log)
    (h : AbsentPath t path) :
    (remove σ t path log).err = none ∧
    (remove σ t path log).log = log ∧
    Tree.forget_flags (remove σ t path log).val = Tree.forget_flags t := by
  cases path with
  | nil => exact absurd h (by simp [AbsentPath])
  | cons name rest => exact do_remove_absent σ rest t name log h

/-- C9, instance: an absent path below the subtree `x` of the written tree,
with a store that would fail every call. -/
theorem remove_absent_is_noop_witness :
    AbsentPath written_tree ["x", "none.txt"] ∧
    (remove failing_store written_tree ["x", "none.txt"] []).err = none ∧
    (remove failing_store written_tree ["x", "none.txt"] []).log = [] ∧
    Tree.forget_flags (remove failing_store written_tree ["x", "none.txt"] []).val
      = Tree.forget_flags written_tree :=
  have h : AbsentPath written_tree ["x", "none.txt"] :=
    ⟨fun h => absurd (congrArg List.length h) (by decide), rfl⟩
  ⟨h, remove_absent_is_noop failing_store written_tree ["x", "none.txt"] [] h⟩

theorem properPrefix_nil_cons (a : String) (p : List String) : ProperPrefix [] (a :: p) :=
  ⟨List.nil_prefix, by simp⟩

theorem not_properPrefix_nil (q : List String) : ¬ ProperPrefix q [] := by
  rintro ⟨h1, h2⟩
  exact h2 (List.prefix_nil.mp h1)

theorem properPrefix_cons_cons (a b : String) (p q : List String) :
    ProperPrefix (b :: q) (a :: p) ↔ b = a ∧ ProperPrefix q p := by
  unfold ProperPrefix
  rw [List.cons_prefix_cons]
  constructor
  · rintro ⟨⟨h1, h2⟩, h3⟩
    exact ⟨h1, h2, fun h => h3 (by rw [h1, h])⟩
  · rintro ⟨h1, h2, h3⟩
    exact ⟨⟨h1, h2⟩, fun h => h3 (by simpa using (List.cons.inj h).2)⟩

theorem subtree_at_cons_of_entries (s t : Tree) (h : s.entries = t.entries) (a : String)
    (q : List String) : subtree_at s (a :: q) = subtree_at t (a :: q) := by
  simp [subtree_at, h]

theorem do_remove_flags_of_absent (σ : ObjectStore) (rest : List String) :
    ∀ (t : Tree) (name : String) (log : Log), AbsentPath t (name :: rest) →
      ∀ q sub, subtree_at t q = some sub →
        ∃ sub2, subtree_at (do_remove σ t name rest log).val q = some sub2 ∧
          (sub2.modified = true ↔ sub.modified = true ∨ ProperPrefix q (name :: rest)) ∧
          (sub2.written = true ↔ sub.written = true ∧
            ¬ ∃ s sub3, ProperPrefix (q ++ [s]) (name :: rest) ∧
              subtree_at t (q ++ [s]) = some sub3) := by
  induction rest with
  | nil =>
    intro t name log h q sub hq
    have hf : entries_find t.entries name = none := h
    simp only [do_remove, hf]
    cases q with
    | nil =>
      have hq2 : t = sub := by simpa [subtree_at] using hq
      subst hq2
      refine ⟨_, rfl, ?_, ?_⟩
      · simp [properPrefix_nil_cons]
      · simp [properPrefix_cons_cons, not_properPrefix_nil]
    | cons a q =>
      refine ⟨sub, (subtree_at_cons_of_entries _ t rfl a q).trans hq, ?_, ?_⟩
      · simp [properPrefix_cons_cons, not_properPrefix_nil]
      · simp [properPrefix_cons_cons, not_properPrefix_nil]
  | cons next rest ih =>
    intro t name log h q sub hq
    cases hf : entries_find t.entries name with
    | none =>
      simp only [do_remove, hf]
      cases q with
      | nil =>
        have hq2 : t = sub := by simpa [subtree_at] using hq
        subst hq2
        refine ⟨_, rfl, ?_, ?_⟩
        · simp [properPrefix_nil_cons]
        · simp only [List.nil_append, properPrefix_cons_cons, iff_self_and]
          intro _
          rintro ⟨s, sub3, ⟨hs, _⟩, h3⟩
          simp [subtree_at, hs, hf] at h3
      | cons a q =>
        have hne : a ≠ name := by
          intro ha
          simp [subtree_at, ha, hf] at hq
        refine ⟨sub, (subtree_at_cons_of_entries _ t rfl a q).trans hq, ?_, ?_⟩
        · simp [properPrefix_cons_cons, hne]
        · simp [properPrefix_cons_cons, hne]
    | some curr =>
      cases curr with
      | blob b => simp [AbsentPath, hf] at h
      | tree sub0 =>
        have h2 : sub0.entries ≠ [] ∧ AbsentPath sub0 (next :: rest) := by
          simpa [AbsentPath, hf] using h
        obtain ⟨herr, _, hsame⟩ := do_remove_absent σ rest sub0 next log h2.2
        have hne : (do_remove σ sub0 next rest log).val.entries ≠ [] :=
          entries_ne_nil_of_forget_flags _ _ hsame h2.1
        have hemp : (do_remove σ sub0 next rest log).val.empty = false := by
          cases he : (do_remove σ sub0 next rest log).val.entries with
          | nil => exact absurd he hne
          | cons _ _ => simp [TreeOf.empty, he]
        simp only [do_remove, hf, herr, hemp, Bool.false_eq_true, if_false]
        cases q with
        | nil =>
          have hq2 : t = sub := by simpa [subtree_at] using hq
          subst hq2
          refine ⟨_, rfl, ?_, ?_⟩
          · simp [properPrefix_nil_cons]
          · simp only [Bool.false_eq_true, false_iff, not_and, not_not]
            intro _
            exact ⟨name, sub0, by simp [properPrefix_cons_cons, properPrefix_nil_cons],
              by simp [subtree_at, hf]⟩
        | cons a q =>
          by_cases ha : a = name
          · subst ha
            have hq2 : subtree_at sub0 q = some sub := by
              simpa [subtree_at, hf] using hq
            obtain ⟨sub2, hs2, hm, hw⟩ := ih sub0 next log h2.2 q sub hq2
            refine ⟨sub2, ?_, ?_, ?_⟩
            · simp [subtree_at, entries_find_assign_self _ _ _ _ hf, hs2]
            · simpa [properPrefix_cons_cons] using hm
            · simpa [properPrefix_cons_cons, subtree_at, hf] using hw
          · refine ⟨sub, ?_, ?_, ?_⟩
            · have : subtree_at t (a :: q) = some sub := hq
              simpa [subtree_at, entries_find_assign_ne _ _ _ _ ha] using this
            · simp [properPrefix_cons_cons, ha]
            · simp [properPrefix_cons_cons, ha]

/-- C8, counterexample: removing the absent path `a` from a new tree changes its
`modified` flag; removing the absent path x/none.txt from the written tree clears
its `written` flag as well. -/
theorem remove_absent_flags_counterexample :
    resolve (create_tree "") ["a"] = none ∧ (create_tree "").modified = false ∧
    (remove ok_store (create_tree "") ["a"] []).err = none ∧
    (remove ok_store (create_tree "") ["a"] []).val.modified = true ∧
    resolve written_tree ["x", "none.txt"] = none ∧ written_tree.written = true ∧
    (remove ok_store written_tree ["x", "none.txt"] []).err = none ∧
    (remove ok_store written_tree ["x", "none.txt"] []).val.written = false :=
  ⟨rfl, rfl, rfl, rfl, rfl, rfl, rfl, rfl⟩

/-- C8, amended: when the path does not resolve to an entry and every existing
non-final segment names a subtree that has at least one entry, `remove` returns
without error and every tree of the hierarchy is still there with these flags:
`modified` is true on the trees reached by a proper prefix of the path (the trees
the descent entered) and as before elsewhere; `written` is false on the trees from
which the descent entered a subtree and as before elsewhere. -/
theorem remove_absent_flags (σ : ObjectStore) (t : Tree) (path : List String) (log : Log)
    (h : AbsentPath t path) :
    (remove σ t path log).err = none ∧
    ∀ q sub, subtree_at t q = some sub →
      ∃ sub2, subtree_at (remove σ t path log).val q = some sub2 ∧
        (sub2.modified = true ↔ sub.modified = true ∨ ProperPrefix q path) ∧
        (sub2.written = true ↔ sub.written = true ∧
          ¬ ∃ s sub3, ProperPrefix (q ++ [s]) path ∧ subtree_at t (q ++ [s]) = some sub3) := by
  cases path with
  | nil => exact absurd h (by simp [AbsentPath])
  | cons name rest =>
    exact ⟨(do_remove_absent σ rest t name log h).1, do_remove_flags_of_absent σ rest t name log h⟩

/-- C8, instance: the written tree and the absent path x/none.txt. -/
theorem remove_absent_flags_witness :
    AbsentPath written_tree ["x", "none.txt"] ∧
    (remove ok_store written_tree ["x", "none.txt"] []).err = none ∧
    ∀ q sub, subtree_at written_tree q = some sub →
      ∃ sub2, subtree_at (remove ok_store written_tree ["x", "none.txt"] []).val q = some sub2 ∧
        (sub2.modified = true ↔ sub.modified = true ∨ ProperPrefix q ["x", "none.txt"]) ∧
        (sub2.written = true ↔ sub.written = true ∧
          ¬ ∃ s sub3, ProperPrefix (q ++ [s]) ["x", "none.txt"] ∧
            subtree_at written_tree (q ++ [s]) = some sub3) :=
  have h : AbsentPath written_tree ["x", "none.txt"] :=
    ⟨fun h => absurd (congrArg List.length h) (by decide), rfl⟩
  ⟨h, remove_absent_flags ok_store written_tree ["x", "none.txt"] [] h⟩

/-! ## Renaming an entry -/

theorem do_update_step (ASSERTS : Bool) (t sub : Tree) (name next : String)
    (rest : List String) (obj : Obj) (log : Log)
    (hf : entries_find t.entries name = some (.tree sub))
    (herr : (do_update ASSERTS sub next rest obj log).err = none) :
    update ASSERTS t (name :: next :: rest) obj log
      = ⟨{ t with modified := true, written := false,
                  entries := entries_assign t.entries name
                    (.tree (do_update ASSERTS sub next rest obj log).val) },
         (do_update ASSERTS sub next rest obj log).log, none⟩ := by
  generalize hr : do_update ASSERTS sub next rest obj log = r at herr ⊢
  simp only [update, do_update, hf, hr, herr]

theorem do_update_step_err (ASSERTS : Bool) (t sub : Tree) (name next : String)
    (rest : List String) (obj : Obj) (log : Log) (e : Err)
    (hf : entries_find t.entries name = some (.tree sub))
    (herr : (do_update ASSERTS sub next rest obj log).err = some e) :
    (update ASSERTS t (name :: next :: rest) obj log).err = some e := by
  generalize hr : do_update ASSERTS sub next rest obj log = r at herr
  simp only [update, do_update, hf, hr, herr]

theorem do_update_assert (t : Tree) (name : String) (obj : Obj) (log : Log)
    (h : name ≠ obj.name) :
    (do_update true t name [] obj log).err = some Err.assertion_failed := by
  simp [do_update, h]

theorem do_update_rename (x : Tree) (old new : String) (curr obj : Obj) (log : Log)
    (hold : entries_find x.entries old = some curr) (hnew : entries_find x.entries new = none)
    (hb : obj.is_blob = true) (hname : obj.name = new) :
    (do_update false x old [] obj log).err = none ∧
    (do_update false x old [] obj log).val.written = x.written ∧
    (do_update false x old [] obj log).val.sort_needed = true ∧
    entries_find (do_update false x old [] obj log).val.entries new
      = some (obj.set_tree_entry curr.tree_entry) ∧
    entries_find (do_update false x old [] obj log).val.entries old = none := by
  have hne : old ≠ new := by
    intro h
    rw [h, hnew] at hold
    cases hold
  have hn2 : old ≠ (obj.set_tree_entry curr.tree_entry).name := by
    rw [Obj.name_set_tree_entry, hname]; exact hne
  have hn3 : (obj.set_tree_entry curr.tree_entry).name = new := by
    rw [Obj.name_set_tree_entry, hname]
  simp only [do_update, Bool.false_and, Bool.false_eq_true, if_false, hold, hb, if_true]
  rw [if_pos hn2, hn3]
  have hfree : entries_find (entries_erase x.entries old) new = none := by
    rw [entries_find_erase_ne _ _ _ (Ne.symm hne)]; exact hnew
  refine ⟨rfl, rfl, rfl, entries_find_insert_self _ _ _ hfree, ?_⟩
  show entries_find (entries_insert (entries_erase x.entries old) new _) old = none
  rw [entries_find_insert_ne _ _ _ _ hne]
  exact entries_find_erase_self _ _

/-- C10, counterexample: when `x` already holds `new.txt`, the update at x/old.txt
with a blob named `new.txt` erases `old.txt` and leaves `new.txt` bound to the object
it had (identity 4), not to the object passed (identity 9); and in a build with
`ASSERTS` the same kind of update stops at the assertion, with `old.txt` still there
and no `new.txt`. -/
theorem update_rename_counterexample :
    resolve collision_tree ["x", "old.txt"] = some (mk_blob "old.txt" 3) ∧
    (update false collision_tree ["x", "old.txt"] (mk_blob "new.txt" 9) []).err = none ∧
    resolve (update false collision_tree ["x", "old.txt"] (mk_blob "new.txt" 9) []).val
      ["x", "new.txt"] = some (mk_blob "new.txt" 4) ∧
    resolve written_tree ["x", "old.txt"] = some (written_blob "old.txt" 3 3) ∧
    (update true written_tree ["x", "old.txt"] (mk_blob "new.txt" 9) []).err
      = some Err.assertion_failed ∧
    resolve (update true written_tree ["x", "old.txt"] (mk_blob "new.txt" 9) []).val
      ["x", "new.txt"] = none ∧
    resolve (update true written_tree ["x", "old.txt"] (mk_blob "new.txt" 9) []).val
      ["x", "old.txt"] = some (written_blob "old.txt" 3 3) :=
  ⟨rfl, rfl, rfl, rfl, rfl, rfl, rfl⟩

/-- C10, amended: for every tree holding a subtree `x` with an entry `old` and no
entry `new`, `update` at the path x/old with a blob named `new` stops at the
assertion in a build with `ASSERTS`; in a build without, it returns, and afterwards
`x` is still bound in the tree, its `written` flag is as it was, its `sort_needed` is
true, and its mapping binds `new` to the object passed (carrying the `tree_entry` of
the replaced entry) while `old` is absent. -/
theorem update_renames_entry (t x : Tree) (xname old new : String) (curr obj : Obj)
    (log : Log) (hx : entries_find t.entries xname = some (.tree x))
    (hold : entries_find x.entries old = some curr) (hnew : entries_find x.entries new = none)
    (hb : obj.is_blob = true) (hname : obj.name = new) :
    (update true t [xname, old] obj log).err = some Err.assertion_failed ∧
    (update false t [xname, old] obj log).err = none ∧
    ∃ x2, entries_find (update false t [xname, old] obj log).val.entries xname
        = some (.tree x2) ∧
      x2.written = x.written ∧ x2.sort_needed = true ∧
      entries_find x2.entries new = some (obj.set_tree_entry curr.tree_entry) ∧
      entries_find x2.entries old = none := by
  obtain ⟨herr, hw, hs, hn, ho⟩ := do_update_rename x old new curr obj log hold hnew hb hname
  have hne : old ≠ obj.name := by
    intro h
    rw [hname] at h
    rw [h, hnew] at hold
    cases hold
  refine ⟨do_update_step_err true t x xname old [] obj log _ hx
    (do_update_assert x old obj log hne), ?_⟩
  rw [do_update_step false t x xname old [] obj log hx herr]
  exact ⟨rfl, _, entries_find_assign_self _ _ _ _ hx, hw, hs, hn, ho⟩

/-- C10, instance: `old.txt` of the subtree `x` of the written tree is
renamed to `new.txt`. -/
theorem update_renames_entry_witness :
    (update true written_tree ["x", "old.txt"] (mk_blob "new.txt" 9) []).err
      = some Err.assertion_failed ∧
    (update false written_tree ["x", "old.txt"] (mk_blob "new.txt" 9) []).err = none ∧
    ∃ x2, entries_find
        (update false written_tree ["x", "old.txt"] (mk_blob "new.txt" 9) []).val.entries "x"
        = some (.tree x2) ∧
      x2.written = true ∧ x2.sort_needed = true ∧
      entries_find x2.entries "new.txt"
        = some ((mk_blob "new.txt" 9).set_tree_entry (written_blob "old.txt" 3 3).tree_entry) ∧
      entries_find x2.entries "old.txt" = none :=
  update_renames_entry written_tree _ "x" "old.txt" "new.txt" (written_blob "old.txt" 3 3)
    (mk_blob "new.txt" 9) [] rfl rfl rfl rfl rfl

/-! ## The persisted entries mirror the mapping -/

theorem do_update_name (ASSERTS : Bool) (t : Tree) (name : String) (rest : List String)
    (obj : Obj) (log : Log) : (do_update ASSERTS t name rest obj log).val.name = t.name := by
  cases rest with
  | nil =>
    simp only [do_update]
    repeat' split
    all_goals rfl
  | cons next rest =>
    simp only [do_update]
    repeat' split
    all_goals rfl

theorem do_remove_name (σ : ObjectStore) (t : Tree) (name : String) (rest : List String)
    (log : Log) : (do_remove σ t name rest log).val.name = t.name := by
  cases rest with
  | nil =>
    simp only [do_remove]
    repeat' split
    all_goals rfl
  | cons next rest =>
    simp only [do_remove]
    repeat' split
    all_goals rfl

theorem object_write_name (σ : ObjectStore) (t : Tree) (log : Log) :
    (object_write σ t log).val.name = t.name := by
  simp only [object_write]
  split <;> rfl

theorem Tree.write_name (σ : ObjectStore) (t : Tree) (log : Log) :
    (Tree.write σ t log).val.name = t.name := by
  cases t
  simp only [Tree.write]
  repeat' split
  all_goals first
    | rfl
    | exact object_write_name σ _ _

theorem write_object_name (σ : ObjectStore) (o : Obj) (log : Log) :
    (write_object σ o log).val.name = o.name := by
  cases o with
  | blob b => simp [write_object]
  | tree t => simp [write_object, Obj.name, Tree.write_name]

theorem add_entry2_name (σ : ObjectStore) (tree : String) (obj : Obj) (git : List GitEntry)
    (log : Log) : (add_entry2 σ tree obj git log).val.1.name = obj.name := by
  simp only [add_entry2]
  split
  · rfl
  · exact Obj.name_set_tree_entry _ _

theorem add_entry2_git (σ : ObjectStore) (tree : String) (obj : Obj) (git : List GitEntry)
    (log : Log) (h : (add_entry2 σ tree obj git log).err = none) :
    (add_entry2 σ tree obj git log).val.2.map GitEntry.name
      = git.map GitEntry.name ++ [obj.name] := by
  simp only [add_entry2] at h ⊢
  split
  · rename_i hrc
    simp [hrc] at h
  · simp

theorem write_entries_names (σ : ObjectStore) (tree : String) (es : List (String × Obj)) :
    ∀ (git : List GitEntry) (log : Log),
      (write_entries σ tree es git log).val.1.map (fun e => (e.1, e.2.name))
        = es.map (fun e => (e.1, e.2.name)) := by
  induction es with
  | nil => intro git log; simp [write_entries]
  | cons e es ih =>
    intro git log
    obtain ⟨k, o⟩ := e
    simp only [write_entries]
    split
    · simp [write_object_name]
    · split
      · simp [add_entry2_name, write_object_name]
      · simp [ih, add_entry2_name, write_object_name]

theorem write_entries_git (σ : ObjectStore) (tree : String) (es : List (String × Obj)) :
    ∀ (git : List GitEntry) (log : Log), (write_entries σ tree es git log).err = none →
      (write_entries σ tree es git log).val.2.map GitEntry.name
        = git.map GitEntry.name ++ es.map (fun e => e.2.name) := by
  induction es with
  | nil => intro git log _; simp [write_entries]
  | cons e es ih =>
    intro git log h
    obtain ⟨k, o⟩ := e
    simp only [write_entries] at h ⊢
    split at h
    · simp at h
    · split at h
      · simp at h
      · rename_i ha
        simp only at h
        rw [ih _ _ h, add_entry2_git _ _ _ _ _ ha, write_object_name]
        simp

theorem mem_of_entries_find {α : Type} (es : List (String × α)) (name : String) (v : α)
    (h : entries_find es name = some v) : (name, v) ∈ es := by
  induction es with
  | nil => simp [entries_find] at h
  | cons e es ih =>
    obtain ⟨k, w⟩ := e
    by_cases hk : k = name
    · simp only [entries_find, hk, if_true, Option.some.injEq] at h
      simp [hk, h]
    · simp only [entries_find, hk, if_false] at h
      exact List.mem_cons_of_mem _ (ih h)

theorem mem_entries_insert_sorted {α : Type} (es : List (String × α)) (name : String) (v : α)
    (e : String × α) (h : e ∈ entries_insert_sorted es name v) : e = (name, v) ∨ e ∈ es := by
  induction es with
  | nil => simpa [entries_insert_sorted] using h
  | cons e0 es ih =>
    obtain ⟨k, w⟩ := e0
    simp only [entries_insert_sorted] at h
    split at h
    · simpa using h
    · rcases List.mem_cons.mp h with h | h
      · exact Or.inr (by simp [h])
      · rcases ih h with h | h
        · exact Or.inl h
        · exact Or.inr (List.mem_cons_of_mem _ h)

theorem mem_entries_insert {α : Type} (es : List (String × α)) (name : String) (v : α)
    (e : String × α) (h : e ∈ entries_insert es name v) : e = (name, v) ∨ e ∈ es := by
  unfold entries_insert at h
  split at h
  · exact Or.inr h
  · exact mem_entries_insert_sorted es name v e h

theorem mem_entries_assign {α : Type} (es : List (String × α)) (name : String) (v : α)
    (e : String × α) (h : e ∈ entries_assign es name v) : e = (name, v) ∨ e ∈ es := by
  induction es with
  | nil => simp [entries_assign] at h
  | cons e0 es ih =>
    obtain ⟨k, w⟩ := e0
    by_cases hk : k = name
    · simp only [entries_assign, hk, if_true] at h
      rcases List.mem_cons.mp h with h | h
      · exact Or.inl h
      · exact Or.inr (List.mem_cons_of_mem _ h)
    · simp only [entries_assign, hk, if_false] at h
      rcases List.mem_cons.mp h with h | h
      · exact Or.inr (by simp [h])
      · rcases ih h with h | h
        · exact Or.inl h
        · exact Or.inr (List.mem_cons_of_mem _ h)

theorem mem_entries_erase {α : Type} (es : List (String × α)) (name : String)
    (e : String × α) : e ∈ entries_erase es name ↔ e ∈ es ∧ e.1 ≠ name := by
  induction es with
  | nil => simp [entries_erase]
  | cons e0 es ih =>
    obtain ⟨k, w⟩ := e0
    by_cases hk : k = name
    · simp only [entries_erase, hk, if_true, ih, List.mem_cons]
      constructor
      · rintro ⟨h1, h2⟩
        exact ⟨Or.inr h1, h2⟩
      · rintro ⟨h1 | h1, h2⟩
        · exact absurd (by rw [h1]) h2
        · exact ⟨h1, h2⟩
    · simp only [entries_erase, hk, if_false, List.mem_cons, ih]
      constructor
      · rintro (h1 | ⟨h1, h2⟩)
        · exact ⟨Or.inl h1, by rw [h1]; exact hk⟩
        · exact ⟨Or.inr h1, h2⟩
      · rintro ⟨h1 | h1, h2⟩
        · exact Or.inl h1
        · exact Or.inr ⟨h1, h2⟩

theorem keys_entries_erase {α : Type} (es : List (String × α)) (name m : String) :
    m ∈ (entries_erase es name).map Prod.fst ↔ m ∈ es.map Prod.fst ∧ m ≠ name := by
  simp only [List.mem_map, mem_entries_erase]
  constructor
  · rintro ⟨e, ⟨h1, h2⟩, rfl⟩
    exact ⟨⟨e, h1, rfl⟩, h2⟩
  · rintro ⟨⟨e, h1, rfl⟩, h2⟩
    exact ⟨e, ⟨h1, h2⟩, rfl⟩

theorem names_remove_entry_byname (git : List GitEntry) (name m : String) :
    m ∈ (remove_entry_byname git name).map GitEntry.name
      ↔ m ∈ git.map GitEntry.name ∧ m ≠ name := by
  simp only [remove_entry_byname, List.mem_map, List.mem_filter, decide_eq_true_eq]
  constructor
  · rintro ⟨e, ⟨h1, h2⟩, rfl⟩
    exact ⟨⟨e, h1, rfl⟩, h2⟩
  · rintro ⟨⟨e, h1, rfl⟩, h2⟩
    exact ⟨e, ⟨h1, h2⟩, rfl⟩

theorem names_patch_entry (te : Option Nat) (f : GitEntry → GitEntry) (git : List GitEntry)
    (hf : ∀ e, (f e).name = e.name) :
    (patch_entry te f git).map GitEntry.name = git.map GitEntry.name := by
  simp only [patch_entry, List.map_map]
  apply List.map_congr_left
  intro e _
  simp only [Function.comp]
  split
  · exact hf e
  · rfl

theorem names_sort_entries (git : List GitEntry) (m : String) :
    m ∈ (sort_entries git).map GitEntry.name ↔ m ∈ git.map GitEntry.name :=
  ((List.perm_insertionSort _ git).map GitEntry.name).mem_iff

theorem NamedByKey_names (es : List (String × Obj)) (h : NamedByKey es) :
    es.map (fun e => e.2.name) = es.map Prod.fst :=
  List.map_congr_left (fun e he => h e he)

theorem NamedByKey_of_names_eq (es fs : List (String × Obj))
    (h : es.map (fun e => (e.1, e.2.name)) = fs.map (fun e => (e.1, e.2.name)))
    (hf : NamedByKey fs) : NamedByKey es := by
  intro e he
  have h1 : (e.1, e.2.name) ∈ es.map (fun e => (e.1, e.2.name)) :=
    List.mem_map_of_mem _ he
  rw [h] at h1
  obtain ⟨f, hfm, hfe⟩ := List.mem_map.mp h1
  have h2 := hf f hfm
  simp only [Prod.mk.injEq] at hfe
  rw [← hfe.1, ← hfe.2]
  exact h2

theorem NamedByKey_insert (es : List (String × Obj)) (name : String) (o : Obj)
    (h : NamedByKey es) (ho : o.name = name) : NamedByKey (entries_insert es name o) := by
  intro e he
  rcases mem_entries_insert es name o e he with h1 | h1
  · rw [h1]; exact ho
  · exact h e h1

theorem NamedByKey_assign (es : List (String × Obj)) (name : String) (o : Obj)
    (h : NamedByKey es) (ho : o.name = name) : NamedByKey (entries_assign es name o) := by
  intro e he
  rcases mem_entries_assign es name o e he with h1 | h1
  · rw [h1]; exact ho
  · exact h e h1

theorem NamedByKey_erase (es : List (String × Obj)) (name : String) (h : NamedByKey es) :
    NamedByKey (entries_erase es name) :=
  fun e he => h e ((mem_entries_erase es name e).mp he).1

theorem Inv_do_update (ASSERTS : Bool) (t : Tree) (name : String) (rest : List String)
    (obj : Obj) (log : Log) (hinv : Inv t)
    (hname : (name :: rest).getLast? = some obj.name)
    (hret : (do_update ASSERTS t name rest obj log).err = none) :
    Inv (do_update ASSERTS t name rest obj log).val := by
  obtain ⟨hk, hm⟩ := hinv
  cases rest with
  | nil =>
    have hn : name = obj.name := by simpa using hname
    have hA : (ASSERTS && decide (name ≠ obj.name)) = false := by simp [hn]
    simp only [do_update, hA, Bool.false_eq_true, if_false]
    cases hf : entries_find t.entries name with
    | none => exact ⟨NamedByKey_insert _ _ _ hk hn.symm, fun h => by simp at h⟩
    | some curr =>
      by_cases hb : obj.is_blob = true
      · have hn2 : name = (obj.set_tree_entry curr.tree_entry).name := by
          rw [Obj.name_set_tree_entry]; exact hn
        simp only [hb, if_true]
        rw [if_neg (not_not.mpr hn2)]
        refine ⟨NamedByKey_assign _ _ _ hk hn2.symm, fun hw n => ?_⟩
        have hp := names_patch_entry curr.tree_entry
          (fun e => { e with oid := obj.oid, attributes := obj.attributes }) t.git
          (fun _ => rfl)
        show n ∈ List.map GitEntry.name (patch_entry curr.tree_entry _ t.git)
          ↔ n ∈ List.map Prod.fst (entries_assign t.entries name _)
        rw [hp, entries_assign_keys]
        exact hm hw n
      · simp only [hb, if_false]
        exact ⟨NamedByKey_assign _ _ _ hk hn.symm, fun h => by simp at h⟩
  | cons next rest =>
    simp only [do_update] at hret ⊢
    cases hf : entries_find t.entries name with
    | none =>
      simp only [hf] at hret ⊢
      cases he : (do_update ASSERTS (create_tree name) next rest obj log).err with
      | some e => simp [he] at hret
      | none =>
        simp only
        refine ⟨NamedByKey_insert _ _ _ hk ?_, fun h => by simp at h⟩
        exact do_update_name ASSERTS (create_tree name) next rest obj log
    | some curr =>
      cases curr with
      | blob b => simp [hf] at hret
      | tree sub =>
        simp only [hf] at hret ⊢
        cases he : (do_update ASSERTS sub next rest obj log).err with
        | some e => simp [he] at hret
        | none =>
          simp only
          refine ⟨NamedByKey_assign _ _ _ hk ?_, fun h => by simp at h⟩
          exact (do_update_name ASSERTS sub next rest obj log).trans
            (hk _ (mem_of_entries_find _ _ _ hf))

theorem Inv_do_remove (σ : ObjectStore) (t : Tree) (name : String) (rest : List String)
    (log : Log) (hinv : Inv t) (hret : (do_remove σ t name rest log).err = none) :
    Inv (do_remove σ t name rest log).val := by
  obtain ⟨hk, hm⟩ := hinv
  have herase : ∀ (es : List (String × Obj)), es.map Prod.fst = t.entries.map Prod.fst →
      t.written = true → ∀ n, n ∈ (remove_entry_byname t.git name).map GitEntry.name
        ↔ n ∈ (entries_erase es name).map Prod.fst := by
    intro es hes hw n
    rw [names_remove_entry_byname, keys_entries_erase, hes]
    exact and_congr_left (fun _ => hm hw n)
  cases rest with
  | nil =>
    simp only [do_remove] at hret ⊢
    cases hf : entries_find t.entries name with
    | none => exact ⟨hk, hm⟩
    | some curr =>
      simp only [hf] at hret ⊢
      split at hret
      · simp at hret
      · rename_i hrc
        simp only [hrc, if_false]
        exact ⟨NamedByKey_erase _ _ hk, fun hw => herase t.entries rfl hw⟩
  | cons next rest =>
    simp only [do_remove] at hret ⊢
    cases hf : entries_find t.entries name with
    | none => exact ⟨hk, hm⟩
    | some curr =>
      cases curr with
      | blob b => simp [hf] at hret
      | tree sub =>
        simp only [hf] at hret ⊢
        have hnm : (Obj.tree (do_remove σ sub next rest log).val).name = name :=
          (do_remove_name σ sub next rest log).trans (hk _ (mem_of_entries_find _ _ _ hf))
        cases he : (do_remove σ sub next rest log).err with
        | some e => simp [he] at hret
        | none =>
          simp only [he] at hret ⊢
          by_cases hemp : (do_remove σ sub next rest log).val.empty = true
          · simp only [hemp, if_true] at hret ⊢
            split at hret
            · simp at hret
            · rename_i hrc
              simp only [hrc, if_false]
              exact ⟨NamedByKey_erase _ _ (NamedByKey_assign _ _ _ hk hnm),
                fun hw => herase _ (entries_assign_keys _ _ _) hw⟩
          · simp only [hemp, if_false]
            exact ⟨NamedByKey_assign _ _ _ hk hnm, fun h => by simp at h⟩

theorem Inv_object_write (σ : ObjectStore) (u : Tree) (log : Log)
    (hk : NamedByKey u.entries) (hm : Mirrors u) : Inv (object_write σ u log).val := by
  simp only [object_write]
  split
  · exact ⟨hk, fun _ => hm⟩
  · exact ⟨hk, fun _ => hm⟩

theorem Inv_write (σ : ObjectStore) (t : Tree) (log : Log) (hinv : Inv t)
    (hret : (Tree.write σ t log).err = none) : Inv (Tree.write σ t log).val := by
  by_cases hne : t.entries = []
  · rw [Tree.write_of_empty σ t log hne]; exact hinv
  · obtain ⟨name, attributes, oid, tree_entry, entries, written, modified, sort_needed, git⟩ := t
    obtain ⟨hk, hm⟩ := hinv
    simp only at hne hk hm
    have hemp : entries.isEmpty = false := by
      cases entries with
      | nil => exact absurd rfl hne
      | cons _ _ => rfl
    simp only [Tree.write, hemp] at hret ⊢
    cases written <;> cases modified <;> cases sort_needed <;>
      simp only [↓reduceIte, Bool.false_eq_true] at hret ⊢
    all_goals first
      | exact ⟨hk, fun _ => hm rfl⟩
      | exact Inv_object_write σ _ _ hk (hm rfl)
      | exact Inv_object_write σ _ _ hk
          (fun n => (names_sort_entries git n).trans (hm rfl n))
      | (split at hret
         · exact absurd hret (by simp)
         · rename_i he
           refine Inv_object_write σ _ _
             (NamedByKey_of_names_eq _ _ (write_entries_names σ _ _ _ _) hk) (fun n => ?_)
           refine (names_sort_entries _ n).trans ?_
           rw [write_entries_git σ _ _ _ _ he, write_entries_keys, NamedByKey_names _ hk]
           simp [clear])

theorem Inv_create_tree (name : String) : Inv (create_tree name) :=
  ⟨fun _ he => by simp [create_tree] at he, fun h => by simp [create_tree] at h⟩

theorem Inv_run_ops (ASSERTS : Bool) (σ : ObjectStore) (ops : List Op) :
    ∀ (t : Tree) (log : Log), Inv t → NamedUpdates ops →
      (run_ops ASSERTS σ ops t log).err = none → Inv (run_ops ASSERTS σ ops t log).val := by
  induction ops with
  | nil => intro t log hinv _ _; exact hinv
  | cons op ops ih =>
    intro t log hinv hnamed hret
    simp only [run_ops] at hret ⊢
    cases he : (run_op ASSERTS σ t log op).err with
    | some e => simp [he] at hret
    | none =>
      simp only [he] at hret ⊢
      refine ih _ _ ?_ (fun p o h => hnamed p o (List.mem_cons_of_mem _ h)) hret
      cases op with
      | update path obj =>
        cases path with
        | nil => simp [run_op, update] at he
        | cons name rest =>
          exact Inv_do_update ASSERTS t name rest obj log hinv
            (hnamed _ _ (List.mem_cons_self _ _)) he
      | remove path =>
        cases path with
        | nil => simp [run_op, remove] at he
        | cons name rest => exact Inv_do_remove σ t name rest log hinv he
      | write => exact Inv_write σ t log hinv he

theorem run_ops_append (ASSERTS : Bool) (σ : ObjectStore) (ops : List Op) (op : Op) :
    ∀ (t : Tree) (log : Log), (run_ops ASSERTS σ (ops ++ [op]) t log).err = none →
      (run_ops ASSERTS σ ops t log).err = none ∧
      run_ops ASSERTS σ (ops ++ [op]) t log
        = run_op ASSERTS σ (run_ops ASSERTS σ ops t log).val
            (run_ops ASSERTS σ ops t log).log op := by
  induction ops with
  | nil =>
    intro t log h
    simp only [List.nil_append, run_ops] at h ⊢
    generalize run_op ASSERTS σ t log op = r at h ⊢
    obtain ⟨v, l, e⟩ := r
    cases e with
    | some e => simp at h
    | none => exact ⟨trivial, rfl⟩
  | cons o ops ih =>
    intro t log h
    simp only [List.cons_append, run_ops] at h ⊢
    cases he : (run_op ASSERTS σ t log o).err with
    | some e => simp [he] at h
    | none =>
      simp only [he] at h ⊢
      exact ih _ _ h

/-- C2: start from a newly created tree and make any sequence of `update` (each
object named as the final segment of its path), `remove` and `write` calls, all of
which return normally (so every store call whose result is checked succeeded),
ending with a `write()`. If the tree is non-empty after that write, the set of entry
names the store holds for it equals the key set of its entries mapping. -/
theorem write_mirrors_entries (ASSERTS : Bool) (σ : ObjectStore) (name : String)
    (ops : List Op) (log : Log) (hnamed : NamedUpdates ops)
    (hret : (run_ops ASSERTS σ (ops ++ [Op.write]) (create_tree name) log).err = none)
    (hne : (run_ops ASSERTS σ (ops ++ [Op.write]) (create_tree name) log).val.entries ≠ []) :
    Mirrors (run_ops ASSERTS σ (ops ++ [Op.write]) (create_tree name) log).val := by
  obtain ⟨hpre, heq⟩ := run_ops_append ASSERTS σ ops Op.write (create_tree name) log hret
  have hinv := Inv_run_ops ASSERTS σ ops (create_tree name) log (Inv_create_tree name)
    hnamed hpre
  rw [heq] at hret hne ⊢
  simp only [run_op] at hret hne ⊢
  have hne0 : (run_ops ASSERTS σ ops (create_tree name) log).val.entries ≠ [] := by
    intro h0
    rw [Tree.write_of_empty σ _ _ h0] at hne
    exact hne h0
  exact (Inv_write σ _ _ hinv hret).2 (Tree.write_ok σ _ _ hret hne0).1

/-- C2, instance: `sample_ops` followed by a write. -/
theorem write_mirrors_entries_witness :
    NamedUpdates sample_ops ∧
    (run_ops true ok_store (sample_ops ++ [Op.write]) (create_tree "") []).err = none ∧
    (run_ops true ok_store (sample_ops ++ [Op.write]) (create_tree "") []).val.entries ≠ [] ∧
    Mirrors (run_ops true ok_store (sample_ops ++ [Op.write]) (create_tree "") []).val :=
  have hnamed : NamedUpdates sample_ops := by
    intro p o h
    simp only [sample_ops, List.mem_cons, Op.update.injEq, List.mem_singleton, reduceCtorEq,
      false_or, or_false, List.not_mem_nil] at h
    rcases h with ⟨rfl, rfl⟩ | ⟨rfl, rfl⟩ | ⟨rfl, rfl⟩ <;> rfl
  have hne : (run_ops true ok_store (sample_ops ++ [Op.write]) (create_tree "") []).val.entries
      ≠ [] := fun h => absurd (congrArg List.length h) (by decide)
  ⟨hnamed, rfl, hne,
   write_mirrors_entries true ok_store "" sample_ops [] hnamed rfl hne⟩

/-! ## Post-condition of `write` -/

/-- C11, counterexample: `write()` on a tree without entries returns without error
and leaves `written = false` and `modified = true` as they were. -/
theorem write_postcondition_counterexample :
    (Tree.write ok_store emptied_tree []).err = none ∧
    (Tree.write ok_store emptied_tree []).val.written = false ∧
    (Tree.write ok_store emptied_tree []).val.modified = true :=
  ⟨rfl, rfl, rfl⟩

/-- C11, amended: whenever `write()` returns without error, a tree with at least
one entry has `written = true` and `modified = false`, and a tree without entries
is exactly as it was (the call returns before touching the flags). -/
theorem write_postcondition (σ : ObjectStore) (t : Tree) (log : Log)
    (h : (Tree.write σ t log).err = none) :
    (t.entries ≠ [] →
      (Tree.write σ t log).val.written = true ∧ (Tree.write σ t log).val.modified = false) ∧
    (t.entries = [] → (Tree.write σ t log).val = t) := by
  constructor
  · intro hne
    exact ⟨(Tree.write_ok σ t log h hne).1, (Tree.write_ok σ t log h hne).2.1⟩
  · intro he
    rw [Tree.write_of_empty σ t log he]

/-- C11, instance: the tree holding a/b/c.txt, written to a store that accepts every
call. -/
theorem write_postcondition_witness :
    (Tree.write ok_store sample_tree []).err = none ∧
    (sample_tree.entries ≠ [] →
      (Tree.write ok_store sample_tree []).val.written = true ∧
      (Tree.write ok_store sample_tree []).val.modified = false) ∧
    (sample_tree.entries = [] → (Tree.write ok_store sample_tree []).val = sample_tree) :=
  ⟨rfl, write_postcondition ok_store sample_tree [] rfl⟩

/-! ## Empty subtrees and `write` -/

/-- C12, the code at the failing input: in the tree whose entry `x` is a subtree
without entries, a full rebuild issues no store call for `x` itself (its `write()`
returns at once, so no tree object is written for it), yet it adds a persisted entry
named `x` to the parent, carrying the identity of a tree that was never written. -/
theorem write_adds_entry_for_empty_subtree :
    subtree_at empty_dir_tree ["x"] = some (create_tree "x") ∧
    (create_tree "x").entries = [] ∧ empty_dir_tree.written = false ∧
    (Tree.write ok_store empty_dir_tree []).err = none ∧
    (Tree.write ok_store empty_dir_tree []).log
      = [StoreCall.git_tree_clear_entries "",
         StoreCall.git_tree_add_entry2 "" 0 "x" 0o040000,
         StoreCall.git_tree_sort_entries "",
         StoreCall.git_object_write ""] ∧
    (Tree.write ok_store empty_dir_tree []).val.git = [⟨1, "x", 0, 0o040000⟩] :=
  ⟨rfl, rfl, rfl, rfl, rfl, rfl⟩

/-! ## Commits -/

theorem Commit.tree_at_update_at (ASSERTS : Bool) (m : Memory) (x y a : Nat)
    (cx cy : CommitObj) (t : Tree) (path : List String) (obj : Obj) (log : Log)
    (hx : m.commits[x]? = some cx) (hy : m.commits[y]? = some cy)
    (hxa : cx.tree = some a) (hya : cy.tree = some a) (ht : m.trees[a]? = some t) :
    Commit.tree_at (Commit.update_at ASSERTS m x path obj log).val y
      = some (Git.update ASSERTS t path obj log).val := by
  have ha : a < m.trees.length := (List.getElem?_eq_some.mp ht).1
  simp only [Commit.update_at, hx, hxa, ht, Commit.tree_at, hy, hya]
  simp [ha]

/-- C13: for every commit `c`, at address `this`, `c.clone()` returns the address of
a new commit (not an address of the memory before the call) whose `tree` is the
same pointer as that of `c`, whose prefix is the prefix of `c` and whose parents are
exactly `[this]`; `c` itself and every `Tree` object are as they were. The tree is
shared, not copied: an update made through the new commit changes the `Tree` object
that `c` points to as well. -/
theorem clone_shares_tree (m : Memory) (this : Nat) (c : CommitObj)
    (h : m.commits[this]? = some c) :
    ∃ (m2 : Memory) (new_commit : Nat) (n : CommitObj),
      Commit.clone m this = some (m2, new_commit) ∧
      m.commits[new_commit]? = none ∧
      m2.commits[new_commit]? = some n ∧
      n.tree = c.tree ∧ n.prefix_path = c.prefix_path ∧ n.parents = [this] ∧
      m2.commits[this]? = some c ∧ m2.trees = m.trees ∧
      (∀ (ASSERTS : Bool) (path : List String) (obj : Obj) (log : Log) (a : Nat) (t : Tree),
        c.tree = some a → m.trees[a]? = some t →
        Commit.tree_at (Commit.update_at ASSERTS m2 new_commit path obj log).val this
          = some (Git.update ASSERTS t path obj log).val ∧
        Commit.tree_at (Commit.update_at ASSERTS m2 new_commit path obj log).val new_commit
          = some (Git.update ASSERTS t path obj log).val) := by
  have hlt : this < m.commits.length := (List.getElem?_eq_some.mp h).1
  have hc : Commit.clone m this
      = some (⟨m.trees, m.commits ++ [⟨0, c.tree, c.prefix_path, [this]⟩]⟩,
          m.commits.length) := by
    simp [Commit.clone, h, Repository.create_commit, Memory.assign_commit, Commit.add_parent]
  have hnew : (m.commits ++ [(⟨0, c.tree, c.prefix_path, [this]⟩ : CommitObj)])[m.commits.length]?
      = some ⟨0, c.tree, c.prefix_path, [this]⟩ := by simp
  have hthis : (m.commits ++ [(⟨0, c.tree, c.prefix_path, [this]⟩ : CommitObj)])[this]?
      = some c := by rw [List.getElem?_append_left hlt]; exact h
  refine ⟨_, _, ⟨0, c.tree, c.prefix_path, [this]⟩, hc, by simp, hnew, rfl, rfl, rfl, hthis,
    rfl, ?_⟩
  intro ASSERTS path obj log a t hca ht
  exact ⟨Commit.tree_at_update_at ASSERTS _ _ _ a _ _ t path obj log hnew hthis hca hca ht,
    Commit.tree_at_update_at ASSERTS _ _ _ a _ _ t path obj log hnew hnew hca hca ht⟩

/-- C13, instance: the commit of `sample_memory` is cloned and README is added through
the clone; the clone is at the new address 1 and points to the tree at address 0, and
the tree that the original commit points to resolves README afterwards. -/
theorem clone_shares_tree_witness :
    sample_memory.commits[0]? = some ⟨0, some 0, [], []⟩ ∧
    (∃ (m2 : Memory) (new_commit : Nat) (n : CommitObj),
      Commit.clone sample_memory 0 = some (m2, new_commit) ∧
      sample_memory.commits[new_commit]? = none ∧
      m2.commits[new_commit]? = some n ∧
      n.tree = some 0 ∧ n.prefix_path = [] ∧ n.parents = [0] ∧
      m2.commits[0]? = some ⟨0, some 0, [], []⟩ ∧ m2.trees = sample_memory.trees ∧
      (∀ (ASSERTS : Bool) (path : List String) (obj : Obj) (log : Log) (a : Nat) (t : Tree),
        some 0 = some a → sample_memory.trees[a]? = some t →
        Commit.tree_at (Commit.update_at ASSERTS m2 new_commit path obj log).val 0
          = some (Git.update ASSERTS t path obj log).val ∧
        Commit.tree_at (Commit.update_at ASSERTS m2 new_commit path obj log).val new_commit
          = some (Git.update ASSERTS t path obj log).val)) ∧
    (∃ (m2 : Memory) (new_commit : Nat) (t : Tree),
      Commit.clone sample_memory 0 = some (m2, new_commit) ∧ new_commit = 1 ∧
      (Commit.update_at true m2 new_commit ["README"] (mk_blob "README" 2) []).err = none ∧
      Commit.tree_at
        (Commit.update_at true m2 new_commit ["README"] (mk_blob "README" 2) []).val 0
        = some t ∧
      resolve t ["README"] = some (mk_blob "README" 2)) :=
  ⟨rfl, clone_shares_tree sample_memory 0 ⟨0, some 0, [], []⟩ rfl,
   ⟨_, _, _, rfl, rfl, rfl, rfl, rfl⟩⟩

theorem subtree_at_of_resolve (path : List String) :
    ∀ (t s : Tree), resolve t path = some (.tree s) → subtree_at t path = some s := by
  induction path with
  | nil => intro t s h; simp [resolve] at h
  | cons name rest ih =>
    intro t s h
    cases rest with
    | nil =>
      simp only [resolve] at h
      simp [subtree_at, h]
    | cons next rest =>
      simp only [resolve] at h
      cases hf : entries_find t.entries name with
      | none => simp [hf] at h
      | some curr =>
        cases curr with
        | blob b => simp [hf] at h
        | tree sub =>
          simp only [hf] at h
          simp only [subtree_at, hf]
          exact ih sub s h

/-- C14, counterexample: in a build without `ASSERTS`, writing the commit that has
no tree at all (the new empty tree is substituted), or the commit whose tree has no
entries, raises no error and writes the commit object. -/
theorem commit_write_empty_counterexample :
    create_commit.resolved_subtree.entries = [] ∧
    (Commit.write false ok_store create_commit []).err = none ∧
    (Commit.write false ok_store create_commit []).log
      = [StoreCall.git_commit_set_tree 0, StoreCall.git_object_write_commit 0] ∧
    (Commit.mk 0 (some emptied_tree) [] []).resolved_subtree.entries = [] ∧
    (Commit.write false ok_store (Commit.mk 0 (some emptied_tree) [] []) []).err = none ∧
    (Commit.write false ok_store (Commit.mk 0 (some emptied_tree) [] []) []).log
      = [StoreCall.git_commit_set_tree 0, StoreCall.git_object_write_commit 0] :=
  ⟨rfl, rfl, rfl, rfl, rfl, rfl⟩

/-- C14, amended: for every commit whose resolved subtree has no entries, in a build
with `ASSERTS` `Commit::write` stops with an error before any store call, so no
commit object is written; in a build without `ASSERTS` nothing is checked: when the
commit has a tree or an empty prefix, the calls issued are exactly the two that set
the tree of the commit and write the commit object, and the call returns without
error when the store accepts the write. -/
theorem commit_write_empty (σ : ObjectStore) (c : Commit) (log : Log)
    (h : c.resolved_subtree.entries = []) :
    ((Commit.write true σ c log).err ≠ none ∧ (Commit.write true σ c log).log = log) ∧
    ((c.tree ≠ none ∨ c.prefix_path = []) →
      (Commit.write false σ c log).log
        = log ++ [StoreCall.git_commit_set_tree c.resolved_subtree.oid,
                  StoreCall.git_object_write_commit c.resolved_subtree.oid] ∧
      (σ.rc (log ++ [StoreCall.git_commit_set_tree c.resolved_subtree.oid])
          (StoreCall.git_object_write_commit c.resolved_subtree.oid) = 0 →
        (Commit.write false σ c log).err = none)) := by
  obtain ⟨oid, tree, pfx, parents⟩ := c
  have hnew : Tree.write σ (create_tree "") log = ⟨create_tree "", log, none⟩ :=
    Tree.write_of_empty σ _ log rfl
  cases tree with
  | none =>
    refine ⟨by simp [Commit.write], ?_⟩
    intro hp
    have hp2 : pfx = [] := by
      rcases hp with hp | hp
      · exact absurd rfl hp
      · exact hp
    subst hp2
    simp only [Commit.write, resolve_subtree, subtree_at, Commit.resolved_subtree, hnew,
      TreeOf.empty, Option.isNone_none, Bool.false_and, Bool.false_eq_true, if_false]
    constructor
    · split <;> simp
    · intro hrc
      simp [hrc]
  | some t =>
    cases pfx with
    | nil =>
      have he : t.entries = [] := h
      have hw : Tree.write σ t log = ⟨t, log, none⟩ := Tree.write_of_empty σ t log he
      refine ⟨by simp [Commit.write, resolve_subtree, subtree_at, TreeOf.empty, he], ?_⟩
      intro _
      simp only [Commit.write, resolve_subtree, subtree_at, Commit.resolved_subtree, hw,
        Option.isNone_some, Bool.false_and, Bool.false_eq_true, if_false]
      constructor
      · split <;> simp
      · intro hrc
        simp [hrc]
    | cons name rest =>
      cases hl : lookup t (name :: rest) with
      | none =>
        refine ⟨by simp [Commit.write, resolve_subtree, hl], ?_⟩
        intro _
        simp only [Commit.write, resolve_subtree, subtree_at, Commit.resolved_subtree, hnew, hl,
          Option.isNone_some, Bool.false_and, Bool.false_eq_true, if_false]
        constructor
        · split <;> simp
        · intro hrc
          simp [hrc]
      | some curr =>
        cases curr with
        | blob b =>
          refine ⟨by simp [Commit.write, resolve_subtree, hl], ?_⟩
          intro _
          simp only [Commit.write, resolve_subtree, subtree_at, Commit.resolved_subtree, hnew,
            hl, Option.isNone_some, Bool.false_and, Bool.false_eq_true, if_false]
          constructor
          · split <;> simp
          · intro hrc
            simp [hrc]
        | tree s =>
          have he : s.entries = [] := by
            simpa [Commit.resolved_subtree, hl] using h
          have hs : subtree_at t (name :: rest) = some s := subtree_at_of_resolve _ t s hl
          have hw : Tree.write σ s log = ⟨s, log, none⟩ := Tree.write_of_empty σ s log he
          refine ⟨by simp [Commit.write, resolve_subtree, hl, hs, TreeOf.empty, he], ?_⟩
          intro _
          simp only [Commit.write, resolve_subtree, Commit.resolved_subtree, hw, hl, hs,
            Option.isNone_some, Bool.false_and, Bool.false_eq_true, if_false]
          constructor
          · split <;> simp
          · intro hrc
            simp [hrc]

/-- C14, instance: the commit whose tree was emptied again. -/
theorem commit_write_empty_witness :
    (Commit.mk 0 (some emptied_tree) [] []).resolved_subtree.entries = [] ∧
    (Commit.write true ok_store (Commit.mk 0 (some emptied_tree) [] []) []).err ≠ none ∧
    (Commit.write true ok_store (Commit.mk 0 (some emptied_tree) [] []) []).log = [] :=
  ⟨rfl, (commit_write_empty ok_store (Commit.mk 0 (some emptied_tree) [] []) [] rfl).1⟩

/-! ## Branches and the repository -/

theorem make_directories_ok (segs : List String) :
    ∀ (fs : FileSystem) (dir : List String), segs ≠ [] →
      (make_directories fs dir segs).2 = none →
      is_directory (make_directories fs dir segs).1 (dir ++ segs) = true := by
  induction segs with
  | nil => intro fs dir h; exact absurd rfl h
  | cons seg rest ih =>
    intro fs dir _ hok
    have hstep : ∀ (fs2 : FileSystem), is_directory fs2 (dir ++ [seg]) = true →
        (make_directories fs2 (dir ++ [seg]) rest).2 = none →
        is_directory (make_directories fs2 (dir ++ [seg]) rest).1 (dir ++ seg :: rest)
          = true := by
      intro fs2 hd h2
      cases rest with
      | nil => simpa [make_directories] using hd
      | cons r rs =>
        have := ih fs2 (dir ++ [seg]) (by simp) h2
        simpa using this
    simp only [make_directories] at hok ⊢
    by_cases hd : is_directory fs (dir ++ [seg]) = true
    · simp only [hd, if_true] at hok ⊢
      exact hstep fs hd hok
    · simp only [hd, Bool.false_eq_true, if_false] at hok ⊢
      cases hc : create_directory fs (dir ++ [seg]) with
      | none => simp [hc] at hok
      | some fs2 =>
        simp only [hc] at hok ⊢
        by_cases hd2 : is_directory fs2 (dir ++ [seg]) = true
        · simp only [hd2, Bool.not_true, Bool.false_eq_true, if_false] at hok ⊢
          exact hstep fs2 hd2 hok
        · simp [hd2] at hok

theorem fs_find_ofstream_write (fs : FileSystem) (file : List String) (content : String)
    (hne : file ≠ []) (hd : is_directory fs file.dropLast = true)
    (hreg : (fs_exists fs file && !is_regular_file fs file) = false) :
    fs_find (ofstream_write fs file content) file = some (.regular content) := by
  have hc : (!fs_exists fs file || is_regular_file fs file) = true := by
    cases h1 : fs_exists fs file <;> cases h2 : is_regular_file fs file <;> simp_all
  cases file with
  | nil => exact absurd rfl hne
  | cons a q => simp [ofstream_write, hd, hc, fs_find]

theorem create_file_ok (fs : FileSystem) (cwd : List String) (dirs : List String)
    (name content : String)
    (h : (create_file fs cwd (dirs ++ [name]) content).2 = none) :
    fs_find (create_file fs cwd (dirs ++ [name]) content).1 (cwd ++ ".git" :: (dirs ++ [name]))
      = some (.regular content) := by
  have hparent : (".git" :: (dirs ++ [name])).dropLast = ".git" :: dirs := by
    rw [← List.cons_append, List.dropLast_concat]
  have hfile : (cwd ++ ".git" :: (dirs ++ [name])).dropLast = cwd ++ ".git" :: dirs := by
    rw [← List.cons_append, ← List.append_assoc, List.dropLast_concat]
  simp only [create_file, List.singleton_append, hparent] at h ⊢
  generalize hm : make_directories fs cwd (".git" :: dirs) = m at h ⊢
  obtain ⟨fs2, e⟩ := m
  cases e with
  | some e => simp at h
  | none =>
    have hd : is_directory fs2 (cwd ++ ".git" :: dirs) = true := by
      have := make_directories_ok (".git" :: dirs) fs cwd (by simp) (by rw [hm])
      rw [hm] at this
      exact this
    simp only at h ⊢
    by_cases hx : (fs_exists fs2 (cwd ++ ".git" :: (dirs ++ [name])) &&
        !is_regular_file fs2 (cwd ++ ".git" :: (dirs ++ [name]))) = true
    · rw [if_pos hx] at h
      simp at h
    · rw [if_neg hx]
      refine fs_find_ofstream_write fs2 _ content (by simp) ?_ (by simpa using hx)
      rw [hfile]
      exact hd

/-- C15, counterexample: the commit write succeeds (the commit object is written),
but the ref path of the branch is a directory, so `Branch::update` raises an error
and no ref file holds the identity of the commit. -/
theorem branch_update_counterexample :
    (Commit.write true ok_store readme_commit []).err = none ∧
    (Branch.update true ok_store sample_sha1 ["repo"] ⟨"master", none⟩ blocked_fs
      readme_commit []).err
      = some (Err.logic_error
          "/repo/.git/refs/heads/master already exists but is not a regular file") ∧
    fs_find (Branch.update true ok_store sample_sha1 ["repo"] ⟨"master", none⟩ blocked_fs
      readme_commit []).val.2 ["repo", ".git", "refs", "heads", "master"]
      = some FsNode.directory :=
  ⟨rfl, rfl, rfl⟩

/-- C15, amended: `Branch::update` sets the commit of the branch to the commit
passed, as `Commit::write` leaves it. When the commit write fails, the call raises
that error and the filesystem is untouched. When the call returns without error
(the commit write succeeded and `create_file` met neither a directory it could not
create nor something other than a regular file at the ref path), the file
`.git/refs/heads/n` under the working directory is a regular file whose content is
the identity text of the commit as it is after `Commit::write`. -/
theorem branch_update_creates_ref (ASSERTS : Bool) (σ : ObjectStore) (sha1 : Commit → String)
    (cwd : List String) (b : Branch) (fs : FileSystem) (c : Commit) (log : Log) :
    (Branch.update ASSERTS σ sha1 cwd b fs c log).val.1.commit
      = some (Commit.write ASSERTS σ c log).val ∧
    ((Commit.write ASSERTS σ c log).err ≠ none →
      (Branch.update ASSERTS σ sha1 cwd b fs c log).err = (Commit.write ASSERTS σ c log).err ∧
      (Branch.update ASSERTS σ sha1 cwd b fs c log).val.2 = fs) ∧
    ((Branch.update ASSERTS σ sha1 cwd b fs c log).err = none →
      (Commit.write ASSERTS σ c log).err = none ∧
      fs_find (Branch.update ASSERTS σ sha1 cwd b fs c log).val.2
          (cwd ++ [".git", "refs", "heads", b.name])
        = some (.regular (sha1 (Commit.write ASSERTS σ c log).val))) := by
  simp only [Branch.update]
  cases he : (Commit.write ASSERTS σ c log).err with
  | some e => simp
  | none =>
    refine ⟨rfl, fun h => absurd rfl h, fun h => ⟨rfl, ?_⟩⟩
    have := create_file_ok fs cwd ["refs", "heads"] b.name
      (sha1 (Commit.write ASSERTS σ c log).val) h
    simpa using this

/-- C15, instance: the branch `master` in a working directory without `.git`. -/
theorem branch_update_creates_ref_witness :
    (Branch.update true ok_store sample_sha1 ["repo"] ⟨"master", none⟩ sample_fs
      readme_commit []).err = none ∧
    fs_find (Branch.update true ok_store sample_sha1 ["repo"] ⟨"master", none⟩ sample_fs
      readme_commit []).val.2 (["repo"] ++ [".git", "refs", "heads", "master"])
      = some (.regular (sample_sha1 (Commit.write true ok_store readme_commit []).val)) :=
  ⟨rfl, ((branch_update_creates_ref true ok_store sample_sha1 ["repo"] ⟨"master", none⟩
    sample_fs readme_commit []).2.2 rfl).2⟩

/-- C16, the code at the failing input: the commit built by updates at `README` and
`src/main` resolves both paths and its write succeeds, but the commit that
`read_commit` returns for its identity has no tree, so neither path resolves in
it. -/
theorem read_commit_has_no_tree :
    (readme_commit.resolve ["README"]).isSome = true ∧
    (readme_commit.resolve ["src", "main"]).isSome = true ∧
    (Commit.write false ok_store readme_commit []).err = none ∧
    (read_commit ok_store (Commit.write false ok_store readme_commit []).val.oid
      (Commit.write false ok_store readme_commit []).log).err = none ∧
    (read_commit ok_store (Commit.write false ok_store readme_commit []).val.oid
      (Commit.write false ok_store readme_commit []).log).val
      = some (Commit.mk (Commit.write false ok_store readme_commit []).val.oid none [] []) ∧
    (Commit.mk (Commit.write false ok_store readme_commit []).val.oid none [] []).resolve
      ["README"] = none ∧
    (Commit.mk (Commit.write false ok_store readme_commit []).val.oid none [] []).resolve
      ["src", "main"] = none :=
  ⟨rfl, rfl, rfl, rfl, rfl, rfl, rfl⟩

/-! ## Failure of `remove` -/

theorem not_prefix_of_concat {α : Type} (l log : List α) (c : α) (h : log <+: l) :
    ¬ (l ++ [c] <+: log) := by
  intro h2
  have h3 := h.length_le
  have h4 := h2.length_le
  simp at h4
  omega

theorem concat_prefix_concat {α : Type} (l m : List α) (c d : α) (hm : ¬ (l ++ [c] <+: m))
    (h : l ++ [c] <+: m ++ [d]) : l = m ∧ c = d := by
  rcases List.prefix_concat_iff.mp h with h | h
  · have := List.append_inj' h rfl
    exact ⟨this.1, by simpa using this.2⟩
  · exact absurd h hm

theorem do_remove_failure (σ : ObjectStore) (rest : List String) :
    ∀ (t : Tree) (name : String) (log : Log), PathOk t (name :: rest) →
      log <+: (do_remove σ t name rest log).log ∧
      ((do_remove σ t name rest log).err = none →
        ∀ l c, log <+: l → l ++ [c] <+: (do_remove σ t name rest log).log → σ.rc l c = 0) ∧
      (∀ e, (do_remove σ t name rest log).err = some e →
        ∃ pre nm holder0 holder, pre ++ [nm] <+: name :: rest ∧
          subtree_at t pre = some holder0 ∧ (∃ o, entries_find holder0.entries nm = some o) ∧
          subtree_at (do_remove σ t name rest log).val pre = some holder ∧
          entries_find holder.entries nm = none ∧
          ∃ l, log <+: l ∧
            (do_remove σ t name rest log).log
              = l ++ [StoreCall.git_tree_remove_entry_byname holder0.name nm] ∧
            σ.rc l (StoreCall.git_tree_remove_entry_byname holder0.name nm) ≠ 0) := by
  induction rest with
  | nil =>
    intro t name log _
    simp only [do_remove]
    cases hf : entries_find t.entries name with
    | none =>
      refine ⟨List.prefix_refl _, fun _ l c h1 h2 => absurd h2 (not_prefix_of_concat l log c h1),
        fun e he => by simp at he⟩
    | some o =>
      simp only
      split
      · rename_i hrc
        refine ⟨List.prefix_append _ _, fun h => by simp at h, fun e _ => ?_⟩
        exact ⟨[], name, t, _, List.prefix_refl _, rfl, ⟨o, hf⟩, rfl,
          entries_find_erase_self _ _, log, List.prefix_refl _, rfl, hrc⟩
      · rename_i hrc
        refine ⟨List.prefix_append _ _, fun _ l c h1 h2 => ?_, fun e he => by simp at he⟩
        obtain ⟨rfl, rfl⟩ := concat_prefix_concat l log c _ (not_prefix_of_concat l log c h1) h2
        exact not_not.mp hrc
  | cons next rest ih =>
    intro t name log hok
    simp only [do_remove]
    cases hf : entries_find t.entries name with
    | none =>
      refine ⟨List.prefix_refl _, fun _ l c h1 h2 => absurd h2 (not_prefix_of_concat l log c h1),
        fun e he => by simp at he⟩
    | some curr =>
      cases curr with
      | blob b => simp [PathOk, hf] at hok
      | tree sub =>
        have hok2 : PathOk sub (next :: rest) := by simpa [PathOk, hf] using hok
        obtain ⟨hpre, hsucc, hfail⟩ := ih sub next log hok2
        try simp only
        cases he : (do_remove σ sub next rest log).err with
        | some e0 =>
          try simp only
          refine ⟨hpre, fun h => by simp at h, fun e _ => ?_⟩
          obtain ⟨pre, nm, holder0, holder, hp, h0, ho, h1, hn, l, hl1, hl2, hl3⟩ := hfail e0 he
          refine ⟨name :: pre, nm, holder0, holder, ?_, ?_, ho, ?_, hn, l, hl1, hl2, hl3⟩
          · rw [List.cons_append, List.cons_prefix_cons]; exact ⟨rfl, hp⟩
          · simp [subtree_at, hf, h0]
          · simp [subtree_at, entries_find_assign_self _ _ _ _ hf, h1]
        | none =>
          try simp only
          by_cases hemp : (do_remove σ sub next rest log).val.empty = true
          · simp only [hemp, if_true]
            split
            · rename_i hrc
              refine ⟨hpre.trans (List.prefix_append _ _), fun h => by simp at h, fun e _ => ?_⟩
              exact ⟨[], name, t, _, by simp, rfl, ⟨_, hf⟩, rfl,
                entries_find_erase_self _ _, _, hpre, rfl, hrc⟩
            · rename_i hrc
              refine ⟨hpre.trans (List.prefix_append _ _), fun _ l c h1 h2 => ?_,
                fun e he => by simp at he⟩
              by_cases hin : l ++ [c] <+: (do_remove σ sub next rest log).log
              · exact hsucc he l c h1 hin
              · obtain ⟨rfl, rfl⟩ := concat_prefix_concat l _ c _ hin h2
                exact not_not.mp hrc
          · simp only [hemp, Bool.false_eq_true, if_false]
            exact ⟨hpre, fun _ => hsucc he, fun e he2 => by simp at he2⟩

/-- C17: for every tree and every path of at least one segment whose existing
non-final segments name subtrees, `remove` raises an error if and only if a store
remove-entry call it issued reported failure. When it raises, the failing call is
the last one, it is the removal of the entry `nm` from the tree reached by a prefix
`pre` of the path, that tree held `nm` before the call, and in the tree that
`remove` leaves behind it no longer does: the mapping entry was erased first and is
not restored. -/
theorem remove_fails_on_store_failure (σ : ObjectStore) (t : Tree) (path : List String)
    (log : Log) (hpath : path ≠ []) (hok : PathOk t path) :
    ((remove σ t path log).err ≠ none ↔ FailedRemove σ log (remove σ t path log).log) ∧
    ((remove σ t path log).err ≠ none →
      ∃ pre nm holder0 holder, pre ++ [nm] <+: path ∧
        subtree_at t pre = some holder0 ∧ (∃ o, entries_find holder0.entries nm = some o) ∧
        subtree_at (remove σ t path log).val pre = some holder ∧
        entries_find holder.entries nm = none ∧
        ∃ l, log <+: l ∧
          (remove σ t path log).log
            = l ++ [StoreCall.git_tree_remove_entry_byname holder0.name nm] ∧
          σ.rc l (StoreCall.git_tree_remove_entry_byname holder0.name nm) ≠ 0) := by
  cases path with
  | nil => exact absurd rfl hpath
  | cons name rest =>
    simp only [remove]
    obtain ⟨_, hsucc, hfail⟩ := do_remove_failure σ rest t name log hok
    have hraise : (do_remove σ t name rest log).err ≠ none →
        ∃ pre nm holder0 holder, pre ++ [nm] <+: name :: rest ∧
          subtree_at t pre = some holder0 ∧ (∃ o, entries_find holder0.entries nm = some o) ∧
          subtree_at (do_remove σ t name rest log).val pre = some holder ∧
          entries_find holder.entries nm = none ∧
          ∃ l, log <+: l ∧
            (do_remove σ t name rest log).log
              = l ++ [StoreCall.git_tree_remove_entry_byname holder0.name nm] ∧
            σ.rc l (StoreCall.git_tree_remove_entry_byname holder0.name nm) ≠ 0 := by
      intro h
      cases he : (do_remove σ t name rest log).err with
      | none => exact absurd he h
      | some e => exact hfail e he
    refine ⟨⟨fun h => ?_, fun h hnone => ?_⟩, hraise⟩
    · obtain ⟨_, nm, holder0, _, _, _, _, _, _, l, hl1, hl2, hl3⟩ := hraise h
      exact ⟨l, holder0.name, nm, hl1, by rw [hl2], hl3⟩
    · obtain ⟨l, tree, nm, hl1, hl2, hl3⟩ := h
      exact hl3 (hsucc hnone l _ hl1 hl2)

/-- C17, instance: the store refuses to remove `x` from the root after the subtree
`x` of the written tree lost its only entry. -/
theorem remove_fails_on_store_failure_witness :
    ["x", "old.txt"] ≠ [] ∧ PathOk written_tree ["x", "old.txt"] ∧
    (remove keep_x_store written_tree ["x", "old.txt"] []).err
      = some (Err.logic_error "Could not remove entry from tree") ∧
    (remove keep_x_store written_tree ["x", "old.txt"] []).val.entries.map Prod.fst = ["f"] ∧
    ((remove keep_x_store written_tree ["x", "old.txt"] []).err ≠ none
      ↔ FailedRemove keep_x_store [] (remove keep_x_store written_tree ["x", "old.txt"] []).log) :=
  ⟨by simp, trivial, rfl, rfl,
   (remove_fails_on_store_failure keep_x_store written_tree ["x", "old.txt"] [] (by simp)
     trivial).1⟩

/-! ## No reachable empty subtree -/

theorem Tree.no_empty_subtree_eq (t : Tree) :
    t.no_empty_subtree = entries_no_empty_subtree t.entries := by
  cases t; simp [Tree.no_empty_subtree]

theorem Obj.no_empty_subtree_tree (t : Tree) :
    (Obj.tree t).no_empty_subtree = (!t.entries.isEmpty && t.no_empty_subtree) := by
  cases t; simp [Obj.no_empty_subtree, Tree.no_empty_subtree]

theorem Obj.no_empty_subtree_of_blob (o : Obj) (h : o.is_blob = true) :
    o.no_empty_subtree = true := by
  cases o with
  | blob b => simp [Obj.no_empty_subtree]
  | tree t => simp [Obj.is_blob] at h

theorem entries_no_empty_subtree_iff (es : List (String × Obj)) :
    entries_no_empty_subtree es = true ↔ ∀ e ∈ es, e.2.no_empty_subtree = true := by
  induction es with
  | nil => simp [entries_no_empty_subtree]
  | cons e es ih =>
    obtain ⟨k, o⟩ := e
    simp [entries_no_empty_subtree, ih]

theorem entries_no_empty_insert (es : List (String × Obj)) (name : String) (o : Obj)
    (h : entries_no_empty_subtree es = true) (ho : o.no_empty_subtree = true) :
    entries_no_empty_subtree (entries_insert es name o) = true := by
  rw [entries_no_empty_subtree_iff] at h ⊢
  intro e he
  rcases mem_entries_insert es name o e he with h1 | h1
  · rw [h1]; exact ho
  · exact h e h1

theorem entries_no_empty_assign (es : List (String × Obj)) (name : String) (o : Obj)
    (h : entries_no_empty_subtree es = true) (ho : o.no_empty_subtree = true) :
    entries_no_empty_subtree (entries_assign es name o) = true := by
  rw [entries_no_empty_subtree_iff] at h ⊢
  intro e he
  rcases mem_entries_assign es name o e he with h1 | h1
  · rw [h1]; exact ho
  · exact h e h1

theorem entries_no_empty_erase (es : List (String × Obj)) (name : String)
    (h : entries_no_empty_subtree es = true) :
    entries_no_empty_subtree (entries_erase es name) = true := by
  rw [entries_no_empty_subtree_iff] at h ⊢
  exact fun e he => h e ((mem_entries_erase es name e).mp he).1

theorem entries_no_empty_erase_assign (es : List (String × Obj)) (name : String) (o : Obj)
    (h : entries_no_empty_subtree es = true) :
    entries_no_empty_subtree (entries_erase (entries_assign es name o) name) = true := by
  rw [entries_no_empty_subtree_iff] at h ⊢
  intro e he
  obtain ⟨h1, h2⟩ := (mem_entries_erase _ name e).mp he
  rcases mem_entries_assign es name o e h1 with h3 | h3
  · exact absurd (by rw [h3]) h2
  · exact h e h3

theorem entries_no_empty_find (es : List (String × Obj)) (name : String) (o : Obj)
    (h : entries_no_empty_subtree es = true) (hf : entries_find es name = some o) :
    o.no_empty_subtree = true :=
  (entries_no_empty_subtree_iff es).mp h _ (mem_of_entries_find es name o hf)

theorem entries_insert_ne_nil {α : Type} (es : List (String × α)) (name : String) (v : α) :
    entries_insert es name v ≠ [] := by
  unfold entries_insert
  split
  · rename_i h
    intro he
    simp [he, entries_find] at h
  · cases es with
    | nil => simp [entries_insert_sorted]
    | cons e es =>
      obtain ⟨k, w⟩ := e
      simp only [entries_insert_sorted]
      split <;> simp

theorem entries_assign_ne_nil {α : Type} (es : List (String × α)) (name : String) (v w : α)
    (h : entries_find es name = some w) : entries_assign es name v ≠ [] := by
  intro he
  have := entries_assign_keys es name v
  rw [he] at this
  have hn := entries_ne_nil_of_find es name w h
  cases es with
  | nil => exact hn rfl
  | cons _ _ => simp at this

theorem do_update_no_empty (ASSERTS : Bool) (obj : Obj) (hb : obj.is_blob = true)
    (rest : List String) :
    ∀ (t : Tree) (name : String) (log : Log), t.no_empty_subtree = true →
      (do_update ASSERTS t name rest obj log).err = none →
      (do_update ASSERTS t name rest obj log).val.entries ≠ [] ∧
      (do_update ASSERTS t name rest obj log).val.no_empty_subtree = true := by
  induction rest with
  | nil =>
    intro t name log ht hret
    rw [Tree.no_empty_subtree_eq] at ht ⊢
    by_cases hA : (ASSERTS && decide (name ≠ obj.name)) = true
    · simp only [do_update, hA, if_true] at hret
      cases hret
    · simp only [do_update, hA, Bool.false_eq_true, if_false]
      cases hf : entries_find t.entries name with
      | none =>
        exact ⟨entries_insert_ne_nil _ _ _,
          entries_no_empty_insert _ _ _ ht (Obj.no_empty_subtree_of_blob _ hb)⟩
      | some curr =>
        have hb2 : (obj.set_tree_entry curr.tree_entry).no_empty_subtree = true :=
          Obj.no_empty_subtree_of_blob _ (by cases obj <;> simp_all [Obj.set_tree_entry, Obj.is_blob])
        simp only [hb, if_true]
        split
        · exact ⟨entries_insert_ne_nil _ _ _,
            entries_no_empty_insert _ _ _ (entries_no_empty_erase _ _ ht) hb2⟩
        · exact ⟨entries_assign_ne_nil _ _ _ _ hf, entries_no_empty_assign _ _ _ ht hb2⟩
  | cons next rest ih =>
    intro t name log ht hret
    rw [Tree.no_empty_subtree_eq] at ht ⊢
    simp only [do_update] at hret ⊢
    cases hf : entries_find t.entries name with
    | none =>
      simp only [hf] at hret ⊢
      cases he : (do_update ASSERTS (create_tree name) next rest obj log).err with
      | some e => simp [he] at hret
      | none =>
        simp only
        obtain ⟨h1, h2⟩ := ih (create_tree name) next log rfl he
        have ho : (Obj.tree (do_update ASSERTS (create_tree name) next rest obj log).val).no_empty_subtree
            = true := by
          rw [Obj.no_empty_subtree_tree, h2]
          cases hh : (do_update ASSERTS (create_tree name) next rest obj log).val.entries with
          | nil => exact absurd hh h1
          | cons _ _ => rfl
        exact ⟨entries_insert_ne_nil _ _ _, entries_no_empty_insert _ _ _ ht ho⟩
    | some curr =>
      cases curr with
      | blob b => simp [hf] at hret
      | tree sub =>
        simp only [hf] at hret ⊢
        cases he : (do_update ASSERTS sub next rest obj log).err with
        | some e => simp [he] at hret
        | none =>
          simp only
          have hsub : Tree.no_empty_subtree sub = true := by
            have := entries_no_empty_find _ _ _ ht hf
            rw [Obj.no_empty_subtree_tree] at this
            simp only [Bool.and_eq_true] at this
            exact this.2
          obtain ⟨h1, h2⟩ := ih sub next log hsub he
          have ho : (Obj.tree (do_update ASSERTS sub next rest obj log).val).no_empty_subtree
              = true := by
            rw [Obj.no_empty_subtree_tree, h2]
            cases hh : (do_update ASSERTS sub next rest obj log).val.entries with
            | nil => exact absurd hh h1
            | cons _ _ => rfl
          exact ⟨entries_assign_ne_nil _ _ _ _ hf, entries_no_empty_assign _ _ _ ht ho⟩

theorem do_remove_no_empty (σ : ObjectStore) (rest : List String) :
    ∀ (t : Tree) (name : String) (log : Log), t.no_empty_subtree = true →
      (do_remove σ t name rest log).err = none →
      (do_remove σ t name rest log).val.no_empty_subtree = true := by
  induction rest with
  | nil =>
    intro t name log ht _
    rw [Tree.no_empty_subtree_eq] at ht ⊢
    simp only [do_remove]
    cases hf : entries_find t.entries name with
    | none => exact ht
    | some curr =>
      simp only
      split <;> exact entries_no_empty_erase _ _ ht
  | cons next rest ih =>
    intro t name log ht hret
    rw [Tree.no_empty_subtree_eq] at ht ⊢
    simp only [do_remove] at hret ⊢
    cases hf : entries_find t.entries name with
    | none => exact ht
    | some curr =>
      cases curr with
      | blob b => simp [hf] at hret
      | tree sub =>
        simp only [hf] at hret ⊢
        cases he : (do_remove σ sub next rest log).err with
        | some e => simp [he] at hret
        | none =>
          have hsub : Tree.no_empty_subtree sub = true := by
            have := entries_no_empty_find _ _ _ ht hf
            rw [Obj.no_empty_subtree_tree] at this
            simp only [Bool.and_eq_true] at this
            exact this.2
          have h2 := ih sub next log hsub he
          simp only
          by_cases hemp : (do_remove σ sub next rest log).val.empty = true
          · simp only [hemp, if_true]
            split <;> exact entries_no_empty_erase_assign _ _ _ ht
          · simp only [hemp, Bool.false_eq_true, if_false]
            refine entries_no_empty_assign _ _ _ ht ?_
            rw [Obj.no_empty_subtree_tree, h2]
            simpa [TreeOf.empty] using hemp

/-- C19: take a tree in which no entry, at any depth, maps to a subtree with an empty
entries mapping. After `update(path, obj)` with `obj` a blob, the non-final segments
of the path naming subtrees or nothing (the object named as the final segment
unless the build has no `ASSERTS`), the update has returned and the same holds; and
after a `remove(path)` that returns without error the same holds. The root is not an
entry, so it alone can be left empty. -/
theorem no_empty_subtree_preserved (ASSERTS : Bool) (σ : ObjectStore) (t : Tree)
    (path : List String) (obj : Obj) (log : Log) (h : t.no_empty_subtree = true) :
    (obj.is_blob = true → path ≠ [] → PathOk t path →
      (ASSERTS = false ∨ path.getLast? = some obj.name) →
      (update ASSERTS t path obj log).err = none ∧
      (update ASSERTS t path obj log).val.no_empty_subtree = true) ∧
    ((remove σ t path log).err = none →
      (remove σ t path log).val.no_empty_subtree = true) := by
  cases path with
  | nil =>
    exact ⟨fun _ hp => absurd rfl hp, fun hr => by simp [remove] at hr⟩
  | cons name rest =>
    refine ⟨fun hb _ hok ha => ?_, fun hr => do_remove_no_empty σ rest t name log h hr⟩
    have hret := do_update_returns ASSERTS obj rest t name log hok ha
    exact ⟨hret, (do_update_no_empty ASSERTS obj hb rest t name log h hret).2⟩

/-- C19, instance: a blob added below `x` of the written tree, and the removal of
a/b/c.txt from the tree that holds only that path, which leaves the root empty. -/
theorem no_empty_subtree_preserved_witness :
    written_tree.no_empty_subtree = true ∧ sample_tree.no_empty_subtree = true ∧
    (update true written_tree ["x", "y", "z"] (mk_blob "z" 7) []).err = none ∧
    (update true written_tree ["x", "y", "z"] (mk_blob "z" 7) []).val.no_empty_subtree = true ∧
    (remove ok_store sample_tree ["a", "b", "c.txt"] []).val.no_empty_subtree = true ∧
    (remove ok_store sample_tree ["a", "b", "c.txt"] []).val.entries = [] :=
  have hu := (no_empty_subtree_preserved true ok_store written_tree ["x", "y", "z"]
    (mk_blob "z" 7) [] rfl).1 rfl (by simp) trivial (Or.inr rfl)
  have hr := (no_empty_subtree_preserved true ok_store sample_tree ["a", "b", "c.txt"]
    (mk_blob "z" 7) [] rfl).2 rfl
  ⟨rfl, rfl, hu.1, hu.2, hr, rfl⟩

/-! ## `remove` after `update` -/

theorem entries_erase_of_find_none {α : Type} (es : List (String × α)) (name : String)
    (h : entries_find es name = none) : entries_erase es name = es := by
  induction es with
  | nil => rfl
  | cons e es ih =>
    obtain ⟨k, v⟩ := e
    by_cases hk : k = name
    · simp [entries_find, hk] at h
    · simp only [entries_find, hk, if_false] at h
      simp [entries_erase, hk, ih h]

theorem entries_erase_insert_sorted {α : Type} (es : List (String × α)) (name : String) (v : α)
    (h : entries_find es name = none) :
    entries_erase (entries_insert_sorted es name v) name = es := by
  induction es with
  | nil => simp [entries_insert_sorted, entries_erase]
  | cons e es ih =>
    obtain ⟨k, w⟩ := e
    by_cases hk : k = name
    · simp [entries_find, hk] at h
    · simp only [entries_find, hk, if_false] at h
      simp only [entries_insert_sorted]
      split
      · simp [entries_erase, hk, entries_erase_of_find_none es name h]
      · simp [entries_erase, hk, ih h]

theorem entries_erase_insert {α : Type} (es : List (String × α)) (name : String) (v : α)
    (h : entries_find es name = none) : entries_erase (entries_insert es name v) name = es := by
  simp [entries_insert, h, entries_erase_insert_sorted]

theorem entries_erase_assign {α : Type} (es : List (String × α)) (name : String) (v : α) :
    entries_erase (entries_assign es name v) name = entries_erase es name := by
  induction es with
  | nil => rfl
  | cons e es ih =>
    obtain ⟨k, w⟩ := e
    by_cases hk : k = name
    · simp [entries_assign, entries_erase, hk]
    · simp [entries_assign, entries_erase, hk, ih]

theorem entries_assign_assign {α : Type} (es : List (String × α)) (name : String) (a b : α) :
    entries_assign (entries_assign es name a) name b = entries_assign es name b := by
  induction es with
  | nil => rfl
  | cons e es ih =>
    obtain ⟨k, w⟩ := e
    by_cases hk : k = name
    · simp [entries_assign, hk]
    · simp [entries_assign, hk, ih]

theorem Tree.forget_state_entries_eq (t : Tree) :
    (Tree.forget_state t).entries = forget_state_entries t.entries := by
  cases t; simp [Tree.forget_state]

theorem forget_state_entries_eq_nil (es : List (String × Obj))
    (h : forget_state_entries es = []) : es = [] := by
  cases es with
  | nil => rfl
  | cons e es => obtain ⟨k, o⟩ := e; simp [forget_state_entries] at h

theorem entries_eq_nil_iff_of_forget_state (s t : Tree)
    (h : Tree.forget_state s = Tree.forget_state t) : s.entries = [] ↔ t.entries = [] := by
  have h1 := Tree.forget_state_entries_eq s
  have h2 := Tree.forget_state_entries_eq t
  rw [h] at h1
  rw [h1] at h2
  constructor
  · intro hs
    rw [hs] at h2
    exact forget_state_entries_eq_nil _ (by simpa [forget_state_entries] using h2.symm)
  · intro ht
    rw [ht] at h2
    exact forget_state_entries_eq_nil _ (by simpa [forget_state_entries] using h2)

theorem forget_state_entries_assign (es : List (String × Obj)) (name : String) (s t : Tree)
    (hf : entries_find es name = some (.tree t))
    (h : Tree.forget_state s = Tree.forget_state t) :
    forget_state_entries (entries_assign es name (.tree s)) = forget_state_entries es := by
  induction es with
  | nil => rfl
  | cons e es ih =>
    obtain ⟨k, o⟩ := e
    by_cases hk : k = name
    · simp only [entries_find, hk, if_true, Option.some.injEq] at hf
      simp [entries_assign, hk, forget_state_entries, hf, Obj.forget_state, h]
    · simp only [entries_find, hk, if_false] at hf
      simp [entries_assign, hk, forget_state_entries, ih hf]

theorem Tree.forget_state_set (t : Tree) (w m : Bool) (es : List (String × Obj))
    (git : List GitEntry) (h : forget_state_entries es = forget_state_entries t.entries) :
    Tree.forget_state { t with written := w, modified := m, entries := es, git := git }
      = Tree.forget_state t := by
  cases t; simp only [Tree.forget_state] at h ⊢; rw [h]

theorem do_remove_undoes_do_update (ASSERTS : Bool) (σ : ObjectStore) (obj : Obj)
    (hstore : ∀ l tree name, σ.rc l (StoreCall.git_tree_remove_entry_byname tree name) = 0)
    (rest : List String) :
    ∀ (t : Tree) (name : String) (log log2 : Log), t.no_empty_subtree = true →
      PathOk t (name :: rest) → resolve t (name :: rest) = none →
      (ASSERTS = false ∨ (name :: rest).getLast? = some obj.name) →
      (do_update ASSERTS t name rest obj log).err = none ∧
      (do_remove σ (do_update ASSERTS t name rest obj log).val name rest log2).err = none ∧
      Tree.forget_state (do_remove σ (do_update ASSERTS t name rest obj log).val name rest log2).val
        = Tree.forget_state t := by
  induction rest with
  | nil =>
    intro t name log log2 _ hok hres ha
    have hret := do_update_returns ASSERTS obj [] t name log hok ha
    have hf : entries_find t.entries name = none := by simpa [resolve] using hres
    have hA : (ASSERTS && decide (name ≠ obj.name)) = false := by
      rcases ha with ha | ha
      · simp [ha]
      · have hn : name = obj.name := by simpa using ha
        simp [hn]
    refine ⟨hret, ?_⟩
    simp only [do_update, hA, Bool.false_eq_true, if_false, hf, do_remove,
      entries_find_insert_self _ _ _ hf, hstore, ne_eq, not_true_eq_false]
    refine ⟨trivial, ?_⟩
    exact Tree.forget_state_set t false true _ _ (by rw [entries_erase_insert _ _ _ hf])
  | cons next rest ih =>
    intro t name log log2 ht hok hres ha
    have ha2 : ASSERTS = false ∨ (next :: rest).getLast? = some obj.name := by
      rcases ha with ha | ha
      · exact Or.inl ha
      · exact Or.inr (by simpa [List.getLast?_cons_cons] using ha)
    have hret := do_update_returns ASSERTS obj (next :: rest) t name log hok ha
    refine ⟨hret, ?_⟩
    rw [Tree.no_empty_subtree_eq] at ht
    cases hf : entries_find t.entries name with
    | none =>
      obtain ⟨hu, hr, hsame⟩ := ih (create_tree name) next log log2 rfl
        (PathOk_of_entries_nil _ rfl _) (resolve_of_entries_nil _ rfl _) ha2
      have hempty : (do_remove σ (do_update ASSERTS (create_tree name) next rest obj log).val
          next rest log2).val.empty = true := by
        have := (entries_eq_nil_iff_of_forget_state _ _ hsame).mpr rfl
        simp [TreeOf.empty, this]
      simp only [do_update, hf, hu, do_remove, entries_find_insert_self _ _ _ hf, hr, hempty,
        if_true, hstore, ne_eq, not_true_eq_false, if_false]
      refine ⟨trivial, ?_⟩
      exact Tree.forget_state_set t false true _ _
        (by rw [entries_erase_assign, entries_erase_insert _ _ _ hf])
    | some curr =>
      cases curr with
      | blob b => simp [PathOk, hf] at hok
      | tree sub =>
        have hok2 : PathOk sub (next :: rest) := by simpa [PathOk, hf] using hok
        have hres2 : resolve sub (next :: rest) = none := by simpa [resolve, hf] using hres
        have hsub : (!sub.entries.isEmpty && Tree.no_empty_subtree sub) = true := by
          have := entries_no_empty_find _ _ _ ht hf
          rwa [Obj.no_empty_subtree_tree] at this
        simp only [Bool.and_eq_true] at hsub
        obtain ⟨hu, hr, hsame⟩ := ih sub next log log2 hsub.2 hok2 hres2 ha2
        have hne : sub.entries ≠ [] := by
          intro h0
          simp [h0] at hsub
        have hempty : (do_remove σ (do_update ASSERTS sub next rest obj log).val
            next rest log2).val.empty = false := by
          have := mt (entries_eq_nil_iff_of_forget_state _ _ hsame).mp hne
          cases hh : (do_remove σ (do_update ASSERTS sub next rest obj log).val
            next rest log2).val.entries with
          | nil => exact absurd hh this
          | cons _ _ => simp [TreeOf.empty, hh]
        simp only [do_update, hf, hu, do_remove, entries_find_assign_self _ _ _ _ hf, hr, hempty,
          Bool.false_eq_true, if_false]
        refine ⟨trivial, ?_⟩
        exact Tree.forget_state_set t false true _ _
          (by rw [entries_assign_assign]; exact forget_state_entries_assign _ _ _ _ hf hsame)

/-- C20: take a tree with no empty subtree and a path that does not resolve to an
entry in it, its existing non-final segments naming subtrees. `update(path, obj)`
(the object named as the final segment unless the build has no `ASSERTS`) followed
by `remove(path)`, the store's remove-entry calls succeeding, both return without
error and leave the entries mapping of the tree and of every subtree equal to what
it was before the update: the two trees differ in `written`, `modified` and the
persisted entry lists only. -/
theorem remove_undoes_update (ASSERTS : Bool) (σ : ObjectStore) (t : Tree)
    (path : List String) (obj : Obj) (log log2 : Log) (hne : t.no_empty_subtree = true)
    (hpath : path ≠ []) (hok : PathOk t path) (hres : resolve t path = none)
    (hassert : ASSERTS = false ∨ path.getLast? = some obj.name)
    (hstore : ∀ l tree name, σ.rc l (StoreCall.git_tree_remove_entry_byname tree name) = 0) :
    (update ASSERTS t path obj log).err = none ∧
    (remove σ (update ASSERTS t path obj log).val path log2).err = none ∧
    Tree.forget_state (remove σ (update ASSERTS t path obj log).val path log2).val
      = Tree.forget_state t := by
  cases path with
  | nil => exact absurd rfl hpath
  | cons name rest =>
    exact do_remove_undoes_do_update ASSERTS σ obj hstore rest t name log log2 hne hok hres
      hassert

/-- C20, instance: x/y/z.txt is added to the written tree and removed again; the
subtree `y` made by the update is pruned, the subtree `x` is kept. -/
theorem remove_undoes_update_witness :
    written_tree.no_empty_subtree = true ∧ PathOk written_tree ["x", "y", "z.txt"] ∧
    resolve written_tree ["x", "y", "z.txt"] = none ∧
    (update true written_tree ["x", "y", "z.txt"] (mk_blob "z.txt" 7) []).err = none ∧
    (remove ok_store (update true written_tree ["x", "y", "z.txt"] (mk_blob "z.txt" 7) []).val
      ["x", "y", "z.txt"] []).err = none ∧
    Tree.forget_state
      (remove ok_store (update true written_tree ["x", "y", "z.txt"] (mk_blob "z.txt" 7) []).val
        ["x", "y", "z.txt"] []).val
      = Tree.forget_state written_tree :=
  ⟨rfl, trivial, rfl,
   remove_undoes_update true ok_store written_tree ["x", "y", "z.txt"] (mk_blob "z.txt" 7) [] []
     rfl (by simp) trivial rfl (Or.inr rfl) (fun _ _ _ => rfl)⟩

/-! ## Dirty subtrees are reached by `write` -/

theorem Tree.all_clean_eq (t : Tree) :
    Tree.all_clean t = (t.written && !t.modified && entries_all_clean t.entries) := by
  cases t; simp [Tree.all_clean]

theorem Tree.dirty_marked_eq (t : Tree) :
    Tree.dirty_marked t = entries_dirty_marked t.written t.entries := by
  cases t; simp [Tree.dirty_marked]

theorem entries_all_clean_iff (es : List (String × Obj)) :
    entries_all_clean es = true ↔ ∀ e ∈ es, Obj.all_clean e.2 = true := by
  induction es with
  | nil => simp [entries_all_clean]
  | cons e es ih =>
    obtain ⟨k, o⟩ := e
    simp [entries_all_clean, ih]

theorem entries_dirty_marked_iff (w : Bool) (es : List (String × Obj)) :
    entries_dirty_marked w es = true ↔ ∀ e ∈ es, Obj.dirty_marked w e.2 = true := by
  induction es with
  | nil => simp [entries_dirty_marked]
  | cons e es ih =>
    obtain ⟨k, o⟩ := e
    simp [entries_dirty_marked, ih]

theorem Obj.dirty_marked_false (w : Bool) (o : Obj) (h : Obj.dirty_marked w o = true) :
    Obj.dirty_marked false o = true := by
  cases o with
  | blob b => rfl
  | tree t =>
    simp only [Obj.dirty_marked, Bool.and_eq_true] at h ⊢
    exact ⟨h.1, by simp⟩

theorem Obj.dirty_marked_of_blob (w : Bool) (o : Obj) (h : o.is_blob = true) :
    Obj.dirty_marked w o = true := by
  cases o with
  | blob b => rfl
  | tree t => simp [Obj.is_blob] at h

theorem Obj.is_blob_set_tree_entry (o : Obj) (te : Option Nat) :
    (o.set_tree_entry te).is_blob = o.is_blob := by
  cases o <;> rfl

theorem entries_dirty_marked_false (w : Bool) (es : List (String × Obj))
    (h : entries_dirty_marked w es = true) : entries_dirty_marked false es = true := by
  rw [entries_dirty_marked_iff] at h ⊢
  exact fun e he => Obj.dirty_marked_false w _ (h e he)

theorem entries_dirty_marked_insert (w : Bool) (es : List (String × Obj)) (name : String)
    (o : Obj) (h : entries_dirty_marked w es = true) (ho : Obj.dirty_marked w o = true) :
    entries_dirty_marked w (entries_insert es name o) = true := by
  rw [entries_dirty_marked_iff] at h ⊢
  intro e he
  rcases mem_entries_insert es name o e he with h1 | h1
  · rw [h1]; exact ho
  · exact h e h1

theorem entries_dirty_marked_assign (w : Bool) (es : List (String × Obj)) (name : String)
    (o : Obj) (h : entries_dirty_marked w es = true) (ho : Obj.dirty_marked w o = true) :
    entries_dirty_marked w (entries_assign es name o) = true := by
  rw [entries_dirty_marked_iff] at h ⊢
  intro e he
  rcases mem_entries_assign es name o e he with h1 | h1
  · rw [h1]; exact ho
  · exact h e h1

theorem entries_dirty_marked_erase (w : Bool) (es : List (String × Obj)) (name : String)
    (h : entries_dirty_marked w es = true) :
    entries_dirty_marked w (entries_erase es name) = true := by
  rw [entries_dirty_marked_iff] at h ⊢
  exact fun e he => h e ((mem_entries_erase es name e).mp he).1

theorem entries_dirty_marked_erase_assign (w : Bool) (es : List (String × Obj)) (name : String)
    (o : Obj) (h : entries_dirty_marked w es = true) :
    entries_dirty_marked w (entries_erase (entries_assign es name o) name) = true := by
  rw [entries_dirty_marked_iff] at h ⊢
  intro e he
  obtain ⟨h1, h2⟩ := (mem_entries_erase _ name e).mp he
  rcases mem_entries_assign es name o e h1 with h3 | h3
  · exact absurd (by rw [h3]) h2
  · exact h e h3

theorem entries_dirty_marked_find (w : Bool) (es : List (String × Obj)) (name : String)
    (t : Tree) (h : entries_dirty_marked w es = true)
    (hf : entries_find es name = some (.tree t)) :
    Tree.dirty_marked t = true ∧ (Tree.all_clean t = true ∨ w = false) := by
  have := (entries_dirty_marked_iff w es).mp h _ (mem_of_entries_find es name _ hf)
  simp only [Obj.dirty_marked, Bool.and_eq_true, Bool.or_eq_true, Bool.not_eq_true'] at this
  exact this

theorem Obj.dirty_marked_tree_false (t : Tree) (h : Tree.dirty_marked t = true) :
    Obj.dirty_marked false (.tree t) = true := by
  simp [Obj.dirty_marked, h]

theorem do_update_dirty_marked (ASSERTS : Bool) (obj : Obj) (hb : obj.is_blob = true)
    (rest : List String) :
    ∀ (t : Tree) (name : String) (log : Log), Tree.dirty_marked t = true →
      (do_update ASSERTS t name rest obj log).err = none →
      Tree.dirty_marked (do_update ASSERTS t name rest obj log).val = true := by
  induction rest with
  | nil =>
    intro t name log ht hret
    rw [Tree.dirty_marked_eq] at ht ⊢
    by_cases hA : (ASSERTS && decide (name ≠ obj.name)) = true
    · simp only [do_update, hA, if_true] at hret
      cases hret
    · simp only [do_update, hA, Bool.false_eq_true, if_false]
      cases hf : entries_find t.entries name with
      | none =>
        exact entries_dirty_marked_insert _ _ _ _ (entries_dirty_marked_false _ _ ht)
          (Obj.dirty_marked_of_blob _ _ hb)
      | some curr =>
        have hb2 : Obj.dirty_marked t.written (obj.set_tree_entry curr.tree_entry) = true :=
          Obj.dirty_marked_of_blob _ _ (by rw [Obj.is_blob_set_tree_entry]; exact hb)
        simp only [hb, if_true]
        split
        · exact entries_dirty_marked_insert _ _ _ _ (entries_dirty_marked_erase _ _ _ ht) hb2
        · exact entries_dirty_marked_assign _ _ _ _ ht hb2
  | cons next rest ih =>
    intro t name log ht hret
    rw [Tree.dirty_marked_eq] at ht ⊢
    simp only [do_update] at hret ⊢
    cases hf : entries_find t.entries name with
    | none =>
      simp only [hf] at hret ⊢
      cases he : (do_update ASSERTS (create_tree name) next rest obj log).err with
      | some e => simp [he] at hret
      | none =>
        simp only
        exact entries_dirty_marked_insert _ _ _ _ (entries_dirty_marked_false _ _ ht)
          (Obj.dirty_marked_tree_false _ (ih (create_tree name) next log rfl he))
    | some curr =>
      cases curr with
      | blob b => simp [hf] at hret
      | tree sub =>
        simp only [hf] at hret ⊢
        cases he : (do_update ASSERTS sub next rest obj log).err with
        | some e => simp [he] at hret
        | none =>
          simp only
          exact entries_dirty_marked_assign _ _ _ _ (entries_dirty_marked_false _ _ ht)
            (Obj.dirty_marked_tree_false _
              (ih sub next log (entries_dirty_marked_find _ _ _ _ ht hf).1 he))

theorem do_remove_dirty_marked (σ : ObjectStore) (rest : List String) :
    ∀ (t : Tree) (name : String) (log : Log), Tree.dirty_marked t = true →
      (do_remove σ t name rest log).err = none →
      Tree.dirty_marked (do_remove σ t name rest log).val = true := by
  induction rest with
  | nil =>
    intro t name log ht _
    rw [Tree.dirty_marked_eq] at ht ⊢
    simp only [do_remove]
    cases hf : entries_find t.entries name with
    | none => exact ht
    | some curr =>
      simp only
      split <;> exact entries_dirty_marked_erase _ _ _ ht
  | cons next rest ih =>
    intro t name log ht hret
    rw [Tree.dirty_marked_eq] at ht ⊢
    simp only [do_remove] at hret ⊢
    cases hf : entries_find t.entries name with
    | none => exact ht
    | some curr =>
      cases curr with
      | blob b => simp [hf] at hret
      | tree sub =>
        simp only [hf] at hret ⊢
        cases he : (do_remove σ sub next rest log).err with
        | some e => simp [he] at hret
        | none =>
          have h2 := ih sub next log (entries_dirty_marked_find _ _ _ _ ht hf).1 he
          simp only
          by_cases hemp : (do_remove σ sub next rest log).val.empty = true
          · simp only [hemp, if_true]
            split <;> exact entries_dirty_marked_erase_assign _ _ _ _ ht
          · simp only [hemp, Bool.false_eq_true, if_false]
            exact entries_dirty_marked_assign _ _ _ _ (entries_dirty_marked_false _ _ ht)
              (Obj.dirty_marked_tree_false _ h2)

theorem Obj.all_clean_set_tree_entry (o : Obj) (te : Option Nat) :
    Obj.all_clean (o.set_tree_entry te) = Obj.all_clean o := by
  cases o with
  | blob b => rfl
  | tree t => cases t; simp [Obj.set_tree_entry, Obj.all_clean, Tree.all_clean]

theorem Obj.no_empty_subtree_set_tree_entry (o : Obj) (te : Option Nat) :
    Obj.no_empty_subtree (o.set_tree_entry te) = Obj.no_empty_subtree o := by
  cases o with
  | blob b => rfl
  | tree t => cases t; simp [Obj.set_tree_entry, Obj.no_empty_subtree]

theorem add_entry2_val (σ : ObjectStore) (tree : String) (obj : Obj) (git : List GitEntry)
    (log : Log) (h : (add_entry2 σ tree obj git log).err = none) :
    (add_entry2 σ tree obj git log).val.1 = obj.set_tree_entry (some log.length) := by
  unfold add_entry2 at h ⊢
  by_cases hrc : σ.rc log (StoreCall.git_tree_add_entry2 tree obj.oid obj.name obj.attributes) ≠ 0
  · simp [hrc] at h
  · simp [hrc]

theorem Obj.all_clean_of_dirty_marked (o : Obj) (h : Obj.dirty_marked true o = true) :
    Obj.all_clean o = true := by
  cases o with
  | blob b => rfl
  | tree t =>
    simp only [Obj.dirty_marked, Bool.and_eq_true] at h
    simpa [Obj.all_clean] using h.2

theorem entries_all_clean_of_dirty_marked (es : List (String × Obj))
    (h : entries_dirty_marked true es = true) : entries_all_clean es = true := by
  rw [entries_dirty_marked_iff] at h
  rw [entries_all_clean_iff]
  exact fun e he => Obj.all_clean_of_dirty_marked _ (h e he)

theorem object_write_all_clean (σ : ObjectStore) (t : Tree) (log : Log)
    (h : (object_write σ t log).err = none) (hc : entries_all_clean t.entries = true) :
    Tree.all_clean (object_write σ t log).val = true := by
  obtain ⟨h1, h2, h3⟩ := object_write_ok σ t log h
  rw [Tree.all_clean_eq, h1, h2, h3, hc]
  rfl

theorem object_write_no_empty (σ : ObjectStore) (t : Tree) (log : Log)
    (h : (object_write σ t log).err = none) :
    Tree.no_empty_subtree (object_write σ t log).val = Tree.no_empty_subtree t ∧
    (object_write σ t log).val.entries = t.entries := by
  obtain ⟨_, _, h3⟩ := object_write_ok σ t log h
  rw [Tree.no_empty_subtree_eq, Tree.no_empty_subtree_eq, h3]
  exact ⟨rfl, rfl⟩

theorem Tree.all_clean_dirty_marked_aux (n : Nat) :
    ∀ t : Tree, sizeOf t ≤ n → Tree.all_clean t = true → Tree.dirty_marked t = true := by
  induction n with
  | zero =>
    intro t hs
    cases t
    simp at hs
  | succ n ih =>
    intro t hs hc
    rw [Tree.all_clean_eq] at hc
    rw [Tree.dirty_marked_eq, entries_dirty_marked_iff]
    simp only [Bool.and_eq_true, entries_all_clean_iff] at hc
    intro e he
    have hec := hc.2 e he
    obtain ⟨k, o⟩ := e
    cases o with
    | blob b => rfl
    | tree s =>
      have hlt : sizeOf s < sizeOf t := by
        cases t with
        | mk name attributes oid tree_entry entries written modified sort_needed git =>
          have h1 := List.sizeOf_lt_of_mem he
          simp only [TreeOf.mk.sizeOf_spec]
          simp only [Prod.mk.sizeOf_spec, Obj.tree.sizeOf_spec] at h1
          omega
      simp only [Obj.all_clean] at hec
      simp only [Obj.dirty_marked, Bool.and_eq_true, Bool.or_eq_true]
      exact ⟨ih s (by omega) hec, Or.inl hec⟩

mutual
theorem Tree.write_all_clean (σ : ObjectStore) : ∀ (t : Tree) (log : Log),
    Tree.dirty_marked t = true → Tree.no_empty_subtree t = true → t.entries ≠ [] →
    (Tree.write σ t log).err = none →
    Tree.all_clean (Tree.write σ t log).val = true ∧
    Tree.no_empty_subtree (Tree.write σ t log).val = true ∧
    (Tree.write σ t log).val.entries ≠ []
  | ⟨name, attributes, oid, tree_entry, entries, written, modified, sort_needed, git⟩, log => by
    intro hJ hN hne hret
    simp only [Tree.dirty_marked] at hJ
    simp only [Tree.no_empty_subtree] at hN
    simp only at hne
    have hemp : entries.isEmpty = false := by
      cases entries with
      | nil => exact absurd rfl hne
      | cons _ _ => rfl
    simp only [Tree.write, hemp, Bool.false_eq_true, if_false] at hret ⊢
    cases written with
    | true =>
      have hc := entries_all_clean_of_dirty_marked _ hJ
      cases modified with
      | false =>
        simp only [if_true, Bool.false_eq_true, if_false]
        exact ⟨by simp [Tree.all_clean, hc], by simpa [Tree.no_empty_subtree] using hN, hne⟩
      | true =>
        simp only [if_true] at hret ⊢
        cases sort_needed with
        | true =>
          simp only [if_true] at hret ⊢
          have h2 := object_write_no_empty σ _ _ hret
          exact ⟨object_write_all_clean σ _ _ hret hc,
            by rw [h2.1]; simpa [Tree.no_empty_subtree] using hN, by rw [h2.2]; exact hne⟩
        | false =>
          simp only [Bool.false_eq_true, if_false] at hret ⊢
          have h2 := object_write_no_empty σ _ _ hret
          exact ⟨object_write_all_clean σ _ _ hret hc,
            by rw [h2.1]; simpa [Tree.no_empty_subtree] using hN, by rw [h2.2]; exact hne⟩
    | false =>
      simp only [Bool.false_eq_true, if_false] at hret ⊢
      cases he : (write_entries σ name entries (clear name log).val (clear name log).log).err with
      | some e => simp [he] at hret
      | none =>
        simp only [he] at hret ⊢
        obtain ⟨h1, h2⟩ := write_entries_all_clean σ name entries _ _ hJ hN he
        have h3 := object_write_no_empty σ _ _ hret
        have hk := write_entries_keys σ name entries (clear name log).val (clear name log).log
        refine ⟨object_write_all_clean σ _ _ hret h1, ?_, ?_⟩
        · rw [h3.1]; simpa [Tree.no_empty_subtree] using h2
        · rw [h3.2]
          intro h0
          simp only at h0
          rw [h0] at hk
          cases entries with
          | nil => exact hne rfl
          | cons _ _ => simp at hk
theorem write_object_all_clean (σ : ObjectStore) : ∀ (o : Obj) (log : Log),
    Obj.dirty_marked false o = true → Obj.no_empty_subtree o = true →
    (write_object σ o log).err = none →
    Obj.all_clean (write_object σ o log).val = true ∧
    Obj.no_empty_subtree (write_object σ o log).val = true
  | .blob b, log => by
    intro _ _ _
    exact ⟨rfl, rfl⟩
  | .tree sub, log => by
    intro hJ hN hret
    simp only [Obj.dirty_marked, Bool.and_eq_true] at hJ
    rw [Obj.no_empty_subtree_tree] at hN
    simp only [Bool.and_eq_true, Bool.not_eq_true', List.isEmpty_eq_false] at hN
    simp only [write_object] at hret ⊢
    obtain ⟨h1, h2, h3⟩ := Tree.write_all_clean σ sub log hJ.1 hN.2 hN.1 hret
    refine ⟨by simpa [Obj.all_clean] using h1, ?_⟩
    rw [Obj.no_empty_subtree_tree, h2]
    simpa using h3
theorem write_entries_all_clean (σ : ObjectStore) (tree : String) :
    ∀ (es : List (String × Obj)) (git : List GitEntry) (log : Log),
    entries_dirty_marked false es = true → entries_no_empty_subtree es = true →
    (write_entries σ tree es git log).err = none →
    entries_all_clean (write_entries σ tree es git log).val.1 = true ∧
    entries_no_empty_subtree (write_entries σ tree es git log).val.1 = true
  | [], git, log => by
    intro _ _ _
    exact ⟨rfl, rfl⟩
  | (k, obj) :: rest, git, log => by
    intro hJ hN hret
    simp only [entries_dirty_marked, Bool.and_eq_true] at hJ
    simp only [entries_no_empty_subtree, Bool.and_eq_true] at hN
    simp only [write_entries] at hret ⊢
    cases he : (write_object σ obj log).err with
    | some e => simp [he] at hret
    | none =>
      simp only [he] at hret ⊢
      obtain ⟨h1, h2⟩ := write_object_all_clean σ obj log hJ.1 hN.1 he
      cases ha : (add_entry2 σ tree (write_object σ obj log).val git
          (write_object σ obj log).log).err with
      | some e => simp [ha] at hret
      | none =>
        simp only [ha] at hret ⊢
        obtain ⟨h3, h4⟩ := write_entries_all_clean σ tree rest _ _ hJ.2 hN.2 hret
        rw [add_entry2_val σ _ _ _ _ ha]
        simp only [entries_all_clean, entries_no_empty_subtree, Bool.and_eq_true,
          Obj.all_clean_set_tree_entry, Obj.no_empty_subtree_set_tree_entry]
        exact ⟨⟨h1, h3⟩, ⟨h2, h4⟩⟩
end

theorem Tree.dirty_marked_of_all_clean (t : Tree) (h : Tree.all_clean t = true) :
    Tree.dirty_marked t = true :=
  Tree.all_clean_dirty_marked_aux (sizeOf t) t (Nat.le_refl _) h

theorem subtree_at_all_clean (q : List String) :
    ∀ (t sub : Tree), Tree.all_clean t = true → subtree_at t q = some sub →
      Tree.all_clean sub = true := by
  induction q with
  | nil =>
    intro t sub ht h
    simp only [subtree_at, Option.some.injEq] at h
    rw [← h]; exact ht
  | cons n q ih =>
    intro t sub ht h
    simp only [subtree_at] at h
    cases hf : entries_find t.entries n with
    | none => simp [hf] at h
    | some o =>
      cases o with
      | blob b => simp [hf] at h
      | tree s =>
        simp only [hf] at h
        rw [Tree.all_clean_eq] at ht
        simp only [Bool.and_eq_true, entries_all_clean_iff] at ht
        exact ih s sub (ht.2 _ (mem_of_entries_find _ _ _ hf)) h

theorem subtree_at_dirty_marked (q : List String) :
    ∀ (t sub : Tree), Tree.dirty_marked t = true → subtree_at t q = some sub →
      (sub.modified = true ∨ sub.written = false) →
      ∀ (p : List String) (anc : Tree), ProperPrefix p q → subtree_at t p = some anc →
        anc.written = false := by
  induction q with
  | nil =>
    intro t sub _ _ _ p anc hp _
    exact absurd hp (not_properPrefix_nil p)
  | cons n q ih =>
    intro t sub ht h hd p anc hp ha
    simp only [subtree_at] at h
    cases hf : entries_find t.entries n with
    | none => simp [hf] at h
    | some o =>
      cases o with
      | blob b => simp [hf] at h
      | tree s =>
        simp only [hf] at h
        rw [Tree.dirty_marked_eq] at ht
        obtain ⟨hs, hc⟩ := entries_dirty_marked_find _ _ _ _ ht hf
        cases p with
        | nil =>
          simp only [subtree_at, Option.some.injEq] at ha
          rw [← ha]
          rcases hc with hc | hc
          · have hsub := subtree_at_all_clean q s sub hc h
            rw [Tree.all_clean_eq] at hsub
            simp only [Bool.and_eq_true, Bool.not_eq_true'] at hsub
            rcases hd with hd | hd
            · rw [hsub.1.2] at hd; cases hd
            · rw [hsub.1.1] at hd; cases hd
          · exact hc
        | cons m p =>
          obtain ⟨hm, hp2⟩ := (properPrefix_cons_cons n m q p).mp hp
          rw [hm] at ha
          simp only [subtree_at, hf] at ha
          exact ih s sub hs h hd p anc hp2 ha

theorem dirty_marked_run_ops (ASSERTS : Bool) (σ : ObjectStore) (ops : List Op) :
    ∀ (t : Tree) (log : Log), Tree.dirty_marked t = true → Tree.no_empty_subtree t = true →
      BlobUpdates ops → (run_ops ASSERTS σ ops t log).err = none →
      Tree.dirty_marked (run_ops ASSERTS σ ops t log).val = true ∧
      Tree.no_empty_subtree (run_ops ASSERTS σ ops t log).val = true := by
  induction ops with
  | nil => intro t log hJ hN _ _; exact ⟨hJ, hN⟩
  | cons op ops ih =>
    intro t log hJ hN hblob hret
    simp only [run_ops] at hret ⊢
    cases he : (run_op ASSERTS σ t log op).err with
    | some e => simp [he] at hret
    | none =>
      simp only [he] at hret ⊢
      have hstep : Tree.dirty_marked (run_op ASSERTS σ t log op).val = true ∧
          Tree.no_empty_subtree (run_op ASSERTS σ t log op).val = true := by
        cases op with
        | update path obj =>
          have hb := hblob path obj (List.mem_cons_self _ _)
          cases path with
          | nil => simp [run_op, update] at he
          | cons name rest =>
            exact ⟨do_update_dirty_marked ASSERTS obj hb rest t name log hJ he,
              (do_update_no_empty ASSERTS obj hb rest t name log hN he).2⟩
        | remove path =>
          cases path with
          | nil => simp [run_op, remove] at he
          | cons name rest =>
            exact ⟨do_remove_dirty_marked σ rest t name log hJ he,
              do_remove_no_empty σ rest t name log hN he⟩
        | write =>
          simp only [run_op] at he ⊢
          by_cases h0 : t.entries = []
          · rw [Tree.write_of_empty σ t log h0]
            exact ⟨hJ, hN⟩
          · obtain ⟨h1, h2, _⟩ := Tree.write_all_clean σ t log hJ hN h0 he
            exact ⟨Tree.dirty_marked_of_all_clean _ h1, h2⟩
      exact ih _ _ hstep.1 hstep.2 (fun p o h => hblob p o (List.mem_cons_of_mem _ h)) hret

/-- C18: start from a newly created tree and make any sequence of `update` calls
passing blobs, `remove` calls and `write` calls, all of which return normally (so
every store call whose result is checked succeeded, and an update under `ASSERTS`
passed an object named as the final segment). In the root reached, whenever the tree
at a path `q` has `modified = true` or `written = false`, the tree at every proper
prefix of `q`, the root included, has `written = false`. Hence when a `write()` on
that root returns without error and the root has entries, every tree reached from it
through the entries has `written = true` and `modified = false`. -/
theorem write_reaches_dirty_subtrees (ASSERTS : Bool) (σ : ObjectStore) (name : String)
    (ops : List Op) (log : Log) (hblob : BlobUpdates ops)
    (hret : (run_ops ASSERTS σ ops (create_tree name) log).err = none) :
    (∀ (q : List String) (sub : Tree),
      subtree_at (run_ops ASSERTS σ ops (create_tree name) log).val q = some sub →
      (sub.modified = true ∨ sub.written = false) →
      ∀ (p : List String) (anc : Tree), ProperPrefix p q →
        subtree_at (run_ops ASSERTS σ ops (create_tree name) log).val p = some anc →
        anc.written = false) ∧
    ((Tree.write σ (run_ops ASSERTS σ ops (create_tree name) log).val
        (run_ops ASSERTS σ ops (create_tree name) log).log).err = none →
      (run_ops ASSERTS σ ops (create_tree name) log).val.entries ≠ [] →
      ∀ (q : List String) (sub : Tree),
        subtree_at (Tree.write σ (run_ops ASSERTS σ ops (create_tree name) log).val
          (run_ops ASSERTS σ ops (create_tree name) log).log).val q = some sub →
        sub.written = true ∧ sub.modified = false) := by
  obtain ⟨hJ, hN⟩ := dirty_marked_run_ops ASSERTS σ ops (create_tree name) log rfl rfl hblob hret
  refine ⟨fun q sub hq hd p anc hp ha => subtree_at_dirty_marked q _ sub hJ hq hd p anc hp ha,
    fun hw hne q sub hq => ?_⟩
  have hc := subtree_at_all_clean q _ sub (Tree.write_all_clean σ _ _ hJ hN hne hw).1 hq
  rw [Tree.all_clean_eq] at hc
  simp only [Bool.and_eq_true, Bool.not_eq_true'] at hc
  exact hc.1

/-- C18, instance: after `dirty_ops` the tree at a/b has `written = false` and so
has its ancestor at `a`; after the write that follows, the tree at a/b has
`written = true` and `modified = false`. -/
theorem write_reaches_dirty_subtrees_witness :
    BlobUpdates dirty_ops ∧
    (run_ops true ok_store dirty_ops (create_tree "") []).err = none ∧
    (∃ sub anc : Tree,
      subtree_at (run_ops true ok_store dirty_ops (create_tree "") []).val ["a", "b"] = some sub ∧
      sub.written = false ∧
      subtree_at (run_ops true ok_store dirty_ops (create_tree "") []).val ["a"] = some anc ∧
      anc.written = false) ∧
    (Tree.write ok_store (run_ops true ok_store dirty_ops (create_tree "") []).val
      (run_ops true ok_store dirty_ops (create_tree "") []).log).err = none ∧
    (run_ops true ok_store dirty_ops (create_tree "") []).val.entries ≠ [] ∧
    (∃ sub : Tree,
      subtree_at (Tree.write ok_store (run_ops true ok_store dirty_ops (create_tree "") []).val
        (run_ops true ok_store dirty_ops (create_tree "") []).log).val ["a", "b"] = some sub ∧
      sub.written = true ∧ sub.modified = false) :=
  have hblob : BlobUpdates dirty_ops := by
    intro p o h
    simp only [dirty_ops, List.mem_cons, Op.update.injEq, List.mem_singleton, reduceCtorEq,
      false_or, or_false, List.not_mem_nil] at h
    rcases h with ⟨rfl, rfl⟩ | ⟨rfl, rfl⟩ | ⟨rfl, rfl⟩ <;> rfl
  have hne : (run_ops true ok_store dirty_ops (create_tree "") []).val.entries ≠ [] :=
    fun h => absurd (congrArg List.length h) (by decide)
  have h := write_reaches_dirty_subtrees true ok_store "" dirty_ops [] hblob rfl
  ⟨hblob, rfl,
   ⟨_, _, rfl, rfl, rfl, h.1 ["a", "b"] _ rfl (Or.inr rfl) ["a"] _ ⟨⟨["b"], rfl⟩, by decide⟩ rfl⟩,
   rfl, hne, ⟨_, rfl, h.2 rfl hne ["a", "b"] _ rfl⟩⟩

end Git
